import Mathlib

/-!
Verification development for the Notion2GoogleDriver mirroring engine.

This file shallowly embeds the core of `src/notion2gdrive/mirror.py` and
`src/notion2gdrive/notion_client.py` in Lean 4 and proves properties about
the embedding.  Python dicts of Notion objects become Lean structures;
filesystem state becomes an explicit record of files and directories
(paths are lists of segments relative to the mirror root); async tasks
become sequential folds (asyncio is single-threaded, and the per-object
logic touches disjoint state except for the shared filesystem, which is
threaded explicitly); fallible operations return `Except`/`Option`.
-/

namespace N2G

/-- Python `str.strip()`: drop leading and trailing whitespace.  (Defined
at character level so that concrete instances reduce inside the kernel.) -/
def pyStrip (s : String) : String :=
  String.mk (((s.toList.dropWhile Char.isWhitespace).reverse.dropWhile Char.isWhitespace).reverse)

/-- Take the first `n` characters of a string (Python slicing `[:n]`). -/
def strTake (s : String) (n : Nat) : String :=
  String.mk (s.toList.take n)

/-- Translation of `mirror.safe_name`'s invalid-character class
`[<>:"/\\|?*]` (the raw regex contains a doubled backslash, denoting a
single backslash character). -/
def isInvalidWinChar (c : Char) : Bool :=
  c == '<' || c == '>' || c == ':' || c == '"' || c == '/' ||
  c == '\\' || c == '|' || c == '?' || c == '*'

/-- Replace every invalid filesystem character by an underscore
(`_INVALID_WIN_CHARS.sub("_", name)`). -/
def replaceInvalidChars (s : String) : String :=
  String.mk (s.toList.map (fun c => if isInvalidWinChar c then '_' else c))

/-- Collapse every maximal run of whitespace to a single space
(`re.sub(r"\s+", " ", name)`).  The flag records whether the previous
character was whitespace, so each maximal run emits one space. -/
def collapseWsAux : Bool → List Char → List Char
  | _, [] => []
  | prevWs, c :: rest =>
    if c.isWhitespace then
      if prevWs then collapseWsAux true rest
      else ' ' :: collapseWsAux true rest
    else c :: collapseWsAux false rest

/-- String form of `collapseWsAux`. -/
def collapseWs (s : String) : String :=
  String.mk (collapseWsAux false s.toList)

/-- Python `str.rstrip(". ")`: drop trailing dots and spaces. -/
def rstripDotSpace (s : String) : String :=
  String.mk ((s.toList.reverse.dropWhile (fun c => c == '.' || c == ' ')).reverse)

/-- Translation of `mirror.safe_name`: strip, replace invalid characters,
collapse whitespace and strip again, drop trailing dots/spaces, fall back
when empty, cap at 160 characters (the fallback is returned uncapped,
exactly as in the source). -/
def safe_name (name : String) (fallback : String) : String :=
  let n1 := pyStrip name
  let n2 := replaceInvalidChars n1
  let n3 := pyStrip (collapseWs n2)
  let n4 := rstripDotSpace n3
  if n4 = "" then fallback else strTake n4 160

/-- Translation of `mirror._id8`: strip dashes (`.replace("-", "")`), take
the first 8 characters, fall back to "unknown" when the result is
empty. -/
def id8 (notionId : String) : String :=
  let t := strTake (String.mk (notionId.toList.filter (fun c => c ≠ '-'))) 8
  if t = "" then "unknown" else t

/-- One element of a Notion rich-text array, keeping the fields that
`notion_markdown.rich_text_to_md` reads. -/
structure RichText where
  plain_text : String
  href : Option String := none
  code : Bool := false
  bold : Bool := false
  italic : Bool := false
  strikethrough : Bool := false
  underline : Bool := false
deriving DecidableEq, Repr

/-- Python `.replace("\r\n", "\n")` at character level. -/
def replaceCRLFAux : List Char → List Char
  | [] => []
  | '\r' :: '\n' :: rest => '\n' :: replaceCRLFAux rest
  | c :: rest => c :: replaceCRLFAux rest

/-- String form of `replaceCRLFAux`. -/
def replaceCRLF (s : String) : String :=
  String.mk (replaceCRLFAux s.toList)

/-- Rendering of one rich-text element, following the wrapping order of
`rich_text_to_md` (code, bold, italic, strikethrough, underline, link). -/
def richTextPart (rt : RichText) : String :=
  let t0 := replaceCRLF rt.plain_text
  let t1 := if rt.code then "`" ++ t0 ++ "`" else t0
  let t2 := if rt.bold then "**" ++ t1 ++ "**" else t1
  let t3 := if rt.italic then "*" ++ t2 ++ "*" else t2
  let t4 := if rt.strikethrough then "~~" ++ t3 ++ "~~" else t3
  let t5 := if rt.underline then "<u>" ++ t4 ++ "</u>" else t4
  match rt.href with
  | some h => "[" ++ t5 ++ "](" ++ h ++ ")"
  | none => t5

/-- Translation of `notion_markdown.rich_text_to_md` (an absent array and
an empty array both render as ""). -/
def rich_text_to_md (rts : List RichText) : String :=
  String.join (rts.map richTextPart)

/-- A page property value: either a title-typed property carrying rich
text, or any other property type (whose payload the mirrored claims never
inspect). -/
inductive PropValue where
  | titleProp (rt : List RichText)
  | otherProp
deriving DecidableEq, Repr

/-- A Notion parent reference, the value of the "parent" key.  `otherType`
stands for any parent type tag other than workspace / database_id /
page_id. -/
inductive NParent where
  | workspace
  | database_id (did : String)
  | page_id (pid : String)
  | otherType (tag : String)
deriving DecidableEq, Repr

/-- A Notion page object as the mirror reads it.  `parent = none` models a
dict with no "parent" key (as in the `_ensure_page` placeholder);
`last_edited_time = ""` models a missing or null value (every read site
applies `or ""`). -/
structure NPage where
  id : String
  object : String
  properties : List (String × PropValue)
  parent : Option NParent
  archived : Bool
  last_edited_time : String
  url : String := ""
deriving DecidableEq, Repr

/-- A Notion database object as the mirror reads it. -/
structure NDatabase where
  id : String
  object : String
  title : List RichText
  archived : Bool
  last_edited_time : String
  url : String := ""
deriving DecidableEq, Repr

/-- Translation of `mirror.page_title`: a non-page object or a page
without a non-empty title-typed property renders as "untitled_page"; the
Python loop over `properties.items()` returns at the first title-typed
property, i.e. `find?` in insertion order. -/
def page_title (page : NPage) : String :=
  if page.object ≠ "page" then "untitled_page"
  else
    match page.properties.find? (fun kv => match kv.2 with
      | .titleProp _ => true
      | .otherProp => false) with
    | some (_, .titleProp rt) =>
      if rich_text_to_md rt = "" then "untitled_page" else rich_text_to_md rt
    | _ => "untitled_page"

/-- Translation of `mirror.database_title`. -/
def database_title (db : NDatabase) : String :=
  if db.object ≠ "database" then "untitled_db"
  else if rich_text_to_md db.title = "" then "untitled_db" else rich_text_to_md db.title

/-- In-memory object caches (`_page_cache` / `_db_cache`), as association
lists from id to object. -/
abbrev PageCache := List (String × NPage)

/-- Database cache. -/
abbrev DbCache := List (String × NDatabase)

/-- Dictionary lookup on an association list (first binding wins, as for a
Python dict where keys are unique). -/
def lookupId {α : Type} (m : List (String × α)) (k : String) : Option α :=
  (m.find? (fun kv => kv.1 == k)).map (·.2)

/-- Translation of `NotionMirror._ensure_page`: a cache miss substitutes
the placeholder dict with the requested id, object "page", empty
properties and no parent key. -/
def ensure_page (pages : PageCache) (pid : String) : NPage :=
  (lookupId pages pid).getD { id := pid, object := "page", properties := [],
                              parent := none, archived := false, last_edited_time := "" }

/-- Translation of `NotionMirror._ensure_database`. -/
def ensure_database (dbs : DbCache) (did : String) : NDatabase :=
  (lookupId dbs did).getD { id := did, object := "database", title := [],
                            archived := false, last_edited_time := "" }

/-- Translation of `NotionMirror._page_file_name`. -/
def page_file_name (page : NPage) : String :=
  safe_name (page_title page) "page" ++ "_" ++ id8 page.id ++ ".md"

/-- Folder name of `NotionMirror._database_folder_path` (the path is this
single segment directly under the mirror root). -/
def database_folder_name (dbs : DbCache) (did : String) : String :=
  "DB_" ++ safe_name (database_title (ensure_database dbs did)) "database" ++ "_" ++ id8 did

/-- Python `Path.with_suffix("")` on a file name: strip the extension (the
text from the last dot), unless the only dot starts the name. -/
def dropExtName (s : String) : String :=
  let rev := s.toList.reverse
  match rev.findIdx? (· == '.') with
  | none => s
  | some i => if i + 1 == rev.length then s else String.mk ((rev.drop (i + 1)).reverse)

/-- `with_suffix("")` applied to the last segment of a path. -/
def dropExtLast (p : List String) : List String :=
  match p.getLast? with
  | none => p
  | some lastSeg => p.dropLast ++ [dropExtName lastSeg]

/-- The per-run path memo `_page_path_cache`, from page id to resolved
path segments relative to the mirror root.  (The source stores absolute
paths and checks that a memo hit starts with the current root; one run
uses a single root, under which the check is always true.) -/
abbrev Memo := List (String × List String)

/-- Translation of `NotionMirror._page_output_path`.  Paths are segment
lists relative to the mirror root.  `fuel` bounds the recursion depth;
`none` models the Python `RecursionError` that unbounded recursion would
raise, and the theorems below show it never occurs for fuel larger than
the number of cached pages.  A recursion failure in the parent branch is
caught and mapped to the `_orphans` bucket, as in the source's
try/except. -/
def page_output_path (pages : PageCache) (dbs : DbCache) :
    Nat → Memo → List String → String → Option (List String × Memo)
  | 0, _, _, _ => none
  | fuel + 1, memo, stack, pid =>
    match lookupId memo pid with
    | some p => some (p, memo)
    | none =>
      if pid ∈ stack then
        let p := ["_cycles", page_file_name (ensure_page pages pid)]
        some (p, (pid, p) :: memo)
      else
        let page := ensure_page pages pid
        let res : List String × Memo :=
          match page.parent with
          | some .workspace => (["_workspace", page_file_name page], memo)
          | some (.database_id did) => ([database_folder_name dbs did, page_file_name page], memo)
          | some (.page_id parentId) =>
            match page_output_path pages dbs fuel memo (pid :: stack) parentId with
            | some (pp, memo2) => (dropExtLast pp ++ [page_file_name page], memo2)
            | none => (["_orphans", page_file_name page], memo)
          | some (.otherType _) => (["_other", page_file_name page], memo)
          | none => (["_other", page_file_name page], memo)
        some (res.1, (pid, res.1) :: res.2)

/-- The set of cached page ids. -/
def cacheKeys (pages : PageCache) : Finset String :=
  (pages.map Prod.fst).toFinset

/-- Number of cached page ids not on the resolution stack: the measure
that bounds the resolver's recursion depth. -/
def freeKeyCount (pages : PageCache) (stack : List String) : Nat :=
  ((cacheKeys pages).filter (fun k => k ∉ stack)).card

/-- The synthetic cyclic parent chain A→B→C→A from the spec's cycle-safety
property: three cached pages, each naming the next as its page parent. -/
def cyclePage (pid parentId : String) : NPage :=
  { id := pid, object := "page", properties := [], parent := some (.page_id parentId),
    archived := false, last_edited_time := "" }

/-- The cache holding the A→B→C→A chain. -/
def cyclePages : PageCache :=
  [("A", cyclePage "A" "B"), ("B", cyclePage "B" "C"), ("C", cyclePage "C" "A")]

/-! ## Filesystem model

Paths are lists of segments relative to the mirror root; the root itself
is the empty list and is never stored.  A filesystem is the set of
existing files and the set of existing directories (duplicate-free by
construction, with set semantics for removal). -/

/-- Filesystem state under the mirror root. -/
structure FS where
  files : List (List String)
  dirs : List (List String)
deriving DecidableEq, Repr

/-- The empty filesystem (a freshly created mirror root). -/
def emptyFS : FS := { files := [], dirs := [] }

/-- Create a file (whole-file write, `Path.write_text`). -/
def insertFile (fs : FS) (p : List String) : FS :=
  if p ∈ fs.files then fs else { fs with files := p :: fs.files }

/-- Delete a file (`Path.unlink`). -/
def removeFile (fs : FS) (p : List String) : FS :=
  { fs with files := fs.files.filter (fun q => q ≠ p) }

/-- All ancestors of a directory path, from the top down — the
directories that `mkdir(parents=True, exist_ok=True)` ensures exist. -/
def dirChain (dir : List String) : List (List String) :=
  (List.range dir.length).map (fun i => dir.take (i + 1))

/-- Add one directory if absent. -/
def addDir (fs : FS) (d : List String) : FS :=
  if d ∈ fs.dirs then fs else { fs with dirs := d :: fs.dirs }

/-- `dir.mkdir(parents=True, exist_ok=True)`. -/
def mkdirParents (fs : FS) (dir : List String) : FS :=
  (dirChain dir).foldl addDir fs

/-- `d` lies strictly below `dir` (so `dir` is a non-empty directory). -/
def strictUnder (dir p : List String) : Bool :=
  dir.isPrefixOf p && decide (dir.length < p.length)

/-- A directory is non-empty iff some file or directory lies strictly
under it; `rmdir` fails with `OSError` exactly then. -/
def hasEntryUnder (fs : FS) (dir : List String) : Bool :=
  fs.files.any (fun f => strictUnder dir f) || fs.dirs.any (fun d => strictUnder dir d)

/-- Translation of `NotionMirror._cleanup_empty_dirs`, on the reversed
path so the walk to the parent is structural: climb from `cur` towards
the root, removing each directory that exists and is empty, stopping at
the first non-empty or missing directory and always strictly before the
root (the `[]` case). -/
def cleanupAux (fs : FS) : List String → FS
  | [] => fs
  | seg :: restRev =>
    let cur := (seg :: restRev).reverse
    if cur ∈ fs.dirs then
      if hasEntryUnder fs cur then fs
      else cleanupAux { fs with dirs := fs.dirs.filter (fun d => d ≠ cur) } restRev
    else fs

/-- `_cleanup_empty_dirs(start_dir, root=mirror root)`. -/
def cleanup_empty_dirs (fs : FS) (start : List String) : FS :=
  cleanupAux fs start.reverse

/-- `old_abs.unlink()` followed by `_cleanup_empty_dirs(old_abs.parent)`. -/
def deleteAndPrune (fs : FS) (p : List String) : FS :=
  cleanup_empty_dirs (removeFile fs p) p.dropLast

/-- `Path.as_posix()` of a segment list (used for the relative path
strings stored in the index). -/
def joinPath : List String → String
  | [] => ""
  | [s] => s
  | s :: s2 :: rest => s ++ "/" ++ joinPath (s2 :: rest)

/-- Split a path string stored in the index back into segments
(`root / Path(old_path)`), cutting at every slash. -/
def splitPathAux : List Char → List Char → List (List Char)
  | acc, [] => [acc.reverse]
  | acc, c :: rest =>
    if c = '/' then acc.reverse :: splitPathAux [] rest
    else splitPathAux (c :: acc) rest

/-- String form of `splitPathAux`. -/
def splitPath (s : String) : List String :=
  (splitPathAux [] s.toList).map String.mk

/-! ## Mirror run model

One `NotionMirror.build_async` run, embedded sequentially.  asyncio runs
tasks on a single thread; each per-object task reads only the caches
(fixed before the write phase) and the shared filesystem, which the
embedding threads through a fold in sorted-id order (the order the tasks
are created in).  Path resolution depends only on the caches and the memo
— never on the filesystem or index — so it is resolved per id in task
order, exactly as the interleaved code computes it. -/

/-- One persisted index entry (`{"last_edited_time": ..., "path": ...}`). -/
structure IndexEntry where
  last_edited_time : String
  path : String
deriving DecidableEq, Repr

/-- One of the two id-to-entry maps of `.mirror_index.json`. -/
abbrev Index := List (String × IndexEntry)

/-- State threaded through one write phase: filesystem, the `results`
accumulator of `(id, meta, count)` triples, the number of `unlink` calls
performed, and (for observability) the list of object files written. -/
structure RunState where
  fs : FS
  results : List (String × IndexEntry × Nat)
  deletions : Nat
  writtenPaths : List (List String)
deriving DecidableEq, Repr

/-- Translation of the per-page task body `handle` in
`NotionMirror._write_pages_async`, given the page id and its resolved
destination (segments relative to the root). -/
def page_step (pages : PageCache) (incremental : Bool) (prevPages : Index)
    (st : RunState) (entry : String × List String) : RunState :=
  let pid := entry.1
  let dest := entry.2
  let page := ensure_page pages pid
  if page.archived then st
  else
    let fs1 := mkdirParents st.fs dest.dropLast
    let lastEdited := page.last_edited_time
    let rel := joinPath dest
    let writeFrom : FS → Nat → RunState := fun fs dels =>
      { fs := insertFile fs dest,
        results := st.results ++ [(pid, ⟨lastEdited, rel⟩, 1)],
        deletions := dels,
        writtenPaths := st.writtenPaths ++ [dest] }
    if incremental then
      match lookupId prevPages pid with
      | some prevE =>
        if prevE.last_edited_time = lastEdited ∧ prevE.path = rel ∧ dest ∈ fs1.files then
          { st with fs := fs1, results := st.results ++ [(pid, ⟨lastEdited, rel⟩, 0)] }
        else
          if prevE.path ≠ "" ∧ prevE.path ≠ rel ∧ splitPath prevE.path ∈ fs1.files then
            writeFrom (deleteAndPrune fs1 (splitPath prevE.path)) (st.deletions + 1)
          else
            writeFrom fs1 st.deletions
      | none => writeFrom fs1 st.deletions
    else writeFrom fs1 st.deletions

/-- Translation of the per-database task body `handle` in
`NotionMirror._write_databases_async`. -/
def db_step (dbs : DbCache) (incremental : Bool) (prevDbs : Index)
    (st : RunState) (did : String) : RunState :=
  let db := ensure_database dbs did
  if db.archived then st
  else
    let folder := [database_folder_name dbs did]
    let fs1 := mkdirParents st.fs folder
    let dest := folder ++ ["__database.md"]
    let lastEdited := db.last_edited_time
    let rel := joinPath dest
    let writeFrom : FS → Nat → RunState := fun fs dels =>
      { fs := insertFile fs dest,
        results := st.results ++ [(did, ⟨lastEdited, rel⟩, 1)],
        deletions := dels,
        writtenPaths := st.writtenPaths ++ [dest] }
    if incremental then
      match lookupId prevDbs did with
      | some prevE =>
        if prevE.last_edited_time = lastEdited ∧ prevE.path = rel ∧ dest ∈ fs1.files then
          { st with fs := fs1, results := st.results ++ [(did, ⟨lastEdited, rel⟩, 0)] }
        else
          if prevE.path ≠ "" ∧ prevE.path ≠ rel ∧ splitPath prevE.path ∈ fs1.files then
            writeFrom (deleteAndPrune fs1 (splitPath prevE.path)) (st.deletions + 1)
          else
            writeFrom fs1 st.deletions
      | none => writeFrom fs1 st.deletions
    else writeFrom fs1 st.deletions

/-- Insertion into a sorted list of strings. -/
def insertSorted (a : String) : List String → List String
  | [] => [a]
  | b :: rest => if a ≤ b then a :: b :: rest else b :: insertSorted a rest

/-- `sorted(keys)` over the cache keys. -/
def sortStrings (l : List String) : List String :=
  l.foldr insertSorted []

/-- Resolve the destination of every page id in task-creation order,
threading the shared `_page_path_cache` memo. -/
def resolve_all (pages : PageCache) (dbs : DbCache) (memo : Memo) :
    List String → List (String × List String) × Memo
  | [] => ([], memo)
  | pid :: rest =>
    let r := (page_output_path pages dbs (pages.length + 1) memo [] pid).getD ([], memo)
    let tail := resolve_all pages dbs r.2 rest
    ((pid, r.1) :: tail.1, tail.2)

/-- The (id, destination) pairs the page write phase operates on, in the
sorted id order of `_write_pages_async`. -/
def pageDests (pages : PageCache) (dbs : DbCache) : List (String × List String) :=
  (resolve_all pages dbs [] (sortStrings (pages.map Prod.fst))).1

/-- One page write phase (`_write_pages_async`). -/
def write_pages (pages : PageCache) (dbs : DbCache) (incremental : Bool)
    (prevPages : Index) (st : RunState) : RunState :=
  (pageDests pages dbs).foldl (page_step pages incremental prevPages) st

/-- One database write phase (`_write_databases_async`). -/
def write_databases (dbs : DbCache) (incremental : Bool)
    (prevDbs : Index) (st : RunState) : RunState :=
  (sortStrings (dbs.map Prod.fst)).foldl (db_step dbs incremental prevDbs) st

/-- The id-to-entry map distilled from a phase's `results` (entries with
`meta is not None`, which is every appended entry). -/
def indexOfResults (rs : List (String × IndexEntry × Nat)) : Index :=
  rs.map (fun r => (r.1, r.2.1))

/-- The `written` counter of a phase (`sum(count for _, _, count in results)`). -/
def writtenOfResults (rs : List (String × IndexEntry × Nat)) : Nat :=
  (rs.map (fun r => r.2.2)).sum

/-- Translation of `NotionMirror._cleanup_removed`: for every id of the
previous index absent from the new one, delete its recorded file when it
exists and prune now-empty ancestor directories; returns the filesystem
and the updated deletion count. -/
def cleanup_removed (prevIndex newIndex : Index) (acc : FS × Nat) : FS × Nat :=
  prevIndex.foldl (fun acc kv =>
    if lookupId newIndex kv.1 = none then
      if kv.2.path ≠ "" ∧ splitPath kv.2.path ∈ acc.1.files then
        (deleteAndPrune acc.1 (splitPath kv.2.path), acc.2 + 1)
      else acc
    else acc) acc

/-- Everything one build run produces (the `MirrorResult` counters, the
persisted index maps, and the run's effect on the filesystem). -/
structure BuildOutcome where
  fs : FS
  pagesIndex : Index
  dbsIndex : Index
  pagesWritten : Nat
  dbsWritten : Nat
  deletions : Nat
  writtenPaths : List (List String)
deriving DecidableEq, Repr

/-- Translation of `NotionMirror._build_incremental_async` from the point
where the caches are populated: page phase, page reconciliation, database
phase, database reconciliation, then the root index file and the
persisted `.mirror_index.json` are (re)written in place. -/
def build_incremental (pages : PageCache) (dbs : DbCache)
    (prevPages prevDbs : Index) (fs0 : FS) : BuildOutcome :=
  let stP := write_pages pages dbs true prevPages ⟨fs0, [], 0, []⟩
  let pagesIndex := indexOfResults stP.results
  let afterP := cleanup_removed prevPages pagesIndex (stP.fs, stP.deletions)
  let stD := write_databases dbs true prevDbs ⟨afterP.1, [], afterP.2, stP.writtenPaths⟩
  let dbsIndex := indexOfResults stD.results
  let afterD := cleanup_removed prevDbs dbsIndex (stD.fs, stD.deletions)
  let fsFinal := insertFile (insertFile afterD.1 ["index.md"]) [".mirror_index.json"]
  { fs := fsFinal,
    pagesIndex := pagesIndex,
    dbsIndex := dbsIndex,
    pagesWritten := writtenOfResults stP.results,
    dbsWritten := writtenOfResults stD.results,
    deletions := afterD.2,
    writtenPaths := stD.writtenPaths }

/-- Translation of `NotionMirror._build_full_async` between the creation
of the fresh temporary directory and the atomic publish: every object is
written against an empty baseline (`incremental=False`, no previous
index, no reconciliation).  The resulting filesystem is the content the
publish step renames into place. -/
def build_full (pages : PageCache) (dbs : DbCache) : BuildOutcome :=
  let stP := write_pages pages dbs false [] ⟨emptyFS, [], 0, []⟩
  let pagesIndex := indexOfResults stP.results
  let stD := write_databases dbs false [] ⟨stP.fs, [], stP.deletions, stP.writtenPaths⟩
  let dbsIndex := indexOfResults stD.results
  let fsFinal := insertFile (insertFile stD.fs ["index.md"]) [".mirror_index.json"]
  { fs := fsFinal,
    pagesIndex := pagesIndex,
    dbsIndex := dbsIndex,
    pagesWritten := writtenOfResults stP.results,
    dbsWritten := writtenOfResults stD.results,
    deletions := stD.deletions,
    writtenPaths := stD.writtenPaths }

/-- A workspace-parented page used by concrete witnesses. -/
def wsPage : NPage :=
  { id := "p1", object := "page", properties := [], parent := some .workspace,
    archived := false, last_edited_time := "t1" }

/-- The persisted document `_save_index_to_async` writes to
`.mirror_index.json`: a generation timestamp and the two id maps. -/
structure IndexPayload where
  generated_at : String
  pages : Index
  databases : Index
deriving DecidableEq, Repr

/-- Translation of `_save_index_to_async`'s payload construction. -/
def save_index_payload (now : String) (pagesIndex dbsIndex : Index) : IndexPayload :=
  { generated_at := now, pages := pagesIndex, databases := dbsIndex }

/-- A workspace page whose destination collides with a stale index
entry's recorded path. -/
def aliasPage : NPage :=
  { id := "aabbccdd", object := "page", properties := [], parent := some .workspace,
    archived := false, last_edited_time := "tY" }

/-- Cache containing only `aliasPage`. -/
def aliasPages : PageCache := [("aabbccdd", aliasPage)]

/-- A previous index whose only entry records, for an id that is no
longer discovered, exactly the live page's destination path. -/
def staleIndex : Index :=
  [("gone-id", ⟨"tX", "_workspace/untitled_page_aabbccdd.md"⟩)]

/-- The non-archived (id, destination) pairs the page phase writes. -/
def livePagePairs (pages : PageCache) (dbs : DbCache) : List (String × List String) :=
  (pageDests pages dbs).filter (fun pd => ¬(ensure_page pages pd.1).archived)

/-- The non-archived database ids, in phase order. -/
def liveDbIds (dbs : DbCache) : List String :=
  (sortStrings (dbs.map Prod.fst)).filter (fun did => ¬(ensure_database dbs did).archived)

/-- The `__database.md` destination of one database. -/
def dbDest (dbs : DbCache) (did : String) : List String :=
  [database_folder_name dbs did, "__database.md"]

/-- The index entries a page phase over `dests` records (archived objects
are skipped; every other object is recorded with its current fingerprint
and resolved relative path). -/
def phaseEntries (pages : PageCache) (dests : List (String × List String)) : Index :=
  dests.filterMap (fun pd =>
    if (ensure_page pages pd.1).archived then none
    else some (pd.1, ⟨(ensure_page pages pd.1).last_edited_time, joinPath pd.2⟩))

/-- The index entries a database phase over `dids` records. -/
def dbPhaseEntries (dbs : DbCache) (dids : List String) : Index :=
  dids.filterMap (fun did =>
    if (ensure_database dbs did).archived then none
    else some (did, ⟨(ensure_database dbs did).last_edited_time, joinPath (dbDest dbs did)⟩))

/-- `out_path.relative_to(dest.parent)` for a database entry link: drop
the folder prefix.  (`relative_to` raises when the path is not under the
folder; that case is modelled as the identity and is unreachable for
entries resolved into their own database's folder.) -/
def relToFolder (folder : String) (out : List String) : List String :=
  if out.take 1 = [folder] then out.drop 1 else out

/-- Translation of the lines `_write_database_index_async` writes to
`__database.md`: front matter, title, and one link line per member page
returned by `query_database` (member pages are `setdefault`-ed into the
page cache, so `pages` already contains them here); an empty or
inaccessible query yields the placeholder entry line. -/
def database_index_lines (pages : PageCache) (dbs : DbCache) (db : NDatabase)
    (did : String) (queryPages : List NPage) (now : String) : List String :=
  let title := database_title db
  let folder := database_folder_name dbs did
  let header := ["---", "id: " ++ did, "url: " ++ db.url,
                 "mirror_generated_at: " ++ now, "---", "", "# " ++ title, ""]
  let entries :=
    if queryPages ≠ [] then
      ["## Entries", ""] ++ queryPages.filterMap (fun p =>
        if p.id = "" then none
        else
          let out := ((page_output_path pages dbs (pages.length + 1) [] [] p.id).getD ([], [])).1
          some ("- [" ++ page_title p ++ "](" ++ joinPath (relToFolder folder out) ++ ")"))
    else ["## Entries", "", "- (no access or empty)"]
  header ++ entries ++ [""]

/-- The database of the spec's concrete scenario: id `d1`, title "Tasks". -/
def tasksDb : NDatabase :=
  { id := "d1", object := "database", title := [{ plain_text := "Tasks" }],
    archived := false, last_edited_time := "t0" }

/-- The page of the concrete scenario: id `p1`, title "Buy milk",
fingerprint `t1`, living in database `d1`. -/
def buyMilkPage : NPage :=
  { id := "p1", object := "page",
    properties := [("Name", .titleProp [{ plain_text := "Buy milk" }])],
    parent := some (.database_id "d1"), archived := false, last_edited_time := "t1" }

/-- Scenario page cache. -/
def scenarioPages : PageCache := [("p1", buyMilkPage)]

/-- Scenario database cache. -/
def scenarioDbs : DbCache := [("d1", tasksDb)]

/-- Scenario page cache after the page's fingerprint changed to `t2`. -/
def scenarioPagesT2 : PageCache :=
  [("p1", { buyMilkPage with last_edited_time := "t2" })]

/-! ## Full-rebuild publication trace

`_build_full_async` writes only under the temporary sibling directory
and publishes at the very end through `_atomic_replace` (remove the
final directory, rename the temporary one into place).  The trace model
records, after every primitive step, which content each of the two
directory locations holds; an external observer sees exactly the states
of this trace. -/

/-- One primitive filesystem operation of the full rebuild, in order:
`shutil.rmtree(tmp_dir)`, `tmp_dir.mkdir`, one file write under the
temporary directory, `shutil.rmtree(final_dir)`, `tmp_dir.replace(final_dir)`. -/
inductive BuildStep where
  | clearTmp
  | mkTmp
  | writeTmp (f : List String)
  | removeFinal
  | renameTmpToFinal
deriving DecidableEq, Repr

/-- Contents of the two directory locations (`none` = directory absent,
`some c` = directory present holding file set `c`). -/
structure DirState where
  finalDir : Option (List (List String))
  tmpDir : Option (List (List String))
deriving DecidableEq, Repr

/-- Add one file to a directory's content. -/
def insertContent (c : List (List String)) (f : List String) : List (List String) :=
  if f ∈ c then c else c ++ [f]

/-- Effect of one build step on the two directories. -/
def applyStep (s : DirState) : BuildStep → DirState
  | .clearTmp => { s with tmpDir := none }
  | .mkTmp => { s with tmpDir := some [] }
  | .writeTmp f => { s with tmpDir := s.tmpDir.map (fun c => insertContent c f) }
  | .removeFinal => { s with finalDir := none }
  | .renameTmpToFinal => { finalDir := s.tmpDir, tmpDir := none }

/-- The step sequence of `_build_full_async` with file writes `ws`:
clear and recreate the temporary directory, perform every write there,
then publish via `_atomic_replace`. -/
def full_build_steps (ws : List (List String)) : List BuildStep :=
  [.clearTmp, .mkTmp] ++ ws.map .writeTmp ++ [.removeFinal, .renameTmpToFinal]

/-- Every state an observer can see: the initial state followed by the
state after each step. -/
def statesAlong (s0 : DirState) (steps : List BuildStep) : List DirState :=
  steps.scanl applyStep s0

/-- The complete content after performing all writes of the run. -/
def writtenContent (ws : List (List String)) : List (List String) :=
  ws.foldl insertContent []

/-! ## Remote request retry loop

Translation of `AsyncNotionClient._request` (and the identical
synchronous `NotionClient._request`).  The environment is a function
from attempt index to the HTTP response that attempt receives; time is
ℚ (seconds).  The loop records every backoff sleep it performs. -/

/-- Final outcome of one `_request` call. -/
inductive ReqOutcome where
  | success
  | httpError (code : Nat)
  | retriesExhausted
deriving DecidableEq, Repr

/-- One HTTP response as `_request` inspects it: status code, the parsed
`retry-after` header (absent or unparsable float = `none`), and whether
a 400 body mentions "Notion-Version". -/
structure HttpResp where
  status : Nat
  retryAfter : Option ℚ
  versionComplaint : Bool

/-- The transient statuses `(429, 500, 502, 503, 504)` the loop retries. -/
def retryable (s : Nat) : Bool :=
  s == 429 || s == 500 || s == 502 || s == 503 || s == 504

/-- The `for attempt in range(8)` loop of `_request`: version fallback
consumes an attempt without sleeping; a retryable status floors the
backoff with the retry-after hint, sleeps it, then doubles it capped at
30; any other status ≥ 400 raises `NotionError`; otherwise the parsed
payload is returned.  Returns the sleep sequence and the outcome. -/
def requestLoop (f : Nat → HttpResp) : String → Nat → Nat → ℚ → List ℚ × ReqOutcome
  | _, 0, _, _ => ([], .retriesExhausted)
  | ver, remaining + 1, idx, backoff =>
    let r := f idx
    if r.status = 400 ∧ r.versionComplaint = true ∧ ver ≠ "2022-06-28" then
      requestLoop f "2022-06-28" remaining (idx + 1) backoff
    else if retryable r.status then
      let b := match r.retryAfter with
        | some ra => max backoff ra
        | none => backoff
      let rest := requestLoop f ver remaining (idx + 1) (min (2 * b) 30)
      (b :: rest.1, rest.2)
    else if 400 ≤ r.status then ([], .httpError r.status)
    else ([], .success)

/-- `_request` proper: attempt budget 8, initial backoff 1 second. -/
def do_request (f : Nat → HttpResp) (ver : String) : List ℚ × ReqOutcome :=
  requestLoop f ver 8 0 1

/-! ## Sliding-window rate limiter

Translation of `AsyncRateLimiter.acquire`.  The state is the list of
recorded acquisition timestamps; one `acquire` pass under the lock
prunes timestamps older than one second and either records `now` and
succeeds or leaves the pruned state and reports the sleep-and-retry
case.  A run processes a monotone sequence of attempt instants. -/

/-- Drop timestamps older than one second
(`[t for t in self._timestamps if now - t < 1.0]`). -/
def pruneTs (ts : List ℚ) (now : ℚ) : List ℚ :=
  ts.filter (fun t => now - t < 1)

/-- One locked pass of `acquire` at instant `now`: prune, then either
record and succeed (fewer than `burst` timestamps remain) or fail,
leaving the pruned state (the caller then sleeps and retries). -/
def acquireStep (burst : Nat) (ts : List ℚ) (now : ℚ) : List ℚ × Bool :=
  if (pruneTs ts now).length < burst then (pruneTs ts now ++ [now], true)
  else (pruneTs ts now, false)

/-- Process a sequence of attempt instants, returning the final
timestamp state and the instants whose acquisition succeeded. -/
def runAcquires (burst : Nat) : List ℚ → List ℚ → List ℚ × List ℚ
  | ts, [] => (ts, [])
  | ts, now :: rest =>
    ((runAcquires burst (acquireStep burst ts now).1 rest).1,
     (if (acquireStep burst ts now).2 then [now] else [])
       ++ (runAcquires burst (acquireStep burst ts now).1 rest).2)

/-- Membership in the rolling one-second window `(a, a + 1]`. -/
def winP (a : ℚ) : ℚ → Bool := fun s => decide (a < s ∧ s ≤ a + 1)

/-! ## Per-task error handling of the write phase

Error model of `_write_page_markdown_async` and the per-page task
`handle` of `_write_pages_async`.  The environment injects, per page id,
whether the content render (the `list_block_children` / block-rendering
calls inside the try of `_write_page_markdown_async`) raises and whether
the final `dest.write_text` raises.  `handle` wraps its body in
`try/finally` — with no `except` clause — and `asyncio.gather` is called
without `return_exceptions`, so an exception escaping one task's body
re-raises from the gather and aborts the phase; this sequential model
propagates the first error the same way. -/

/-- Injected failure behaviour for one page's task. -/
structure TaskEnv where
  renderFails : Bool
  writeFails : Bool
  renderMsg : String := ""
deriving DecidableEq, Repr

/-- The front-matter and title lines `_write_page_markdown_async`
assembles before the content section. -/
def pageHeaderLines (page : NPage) (now : String) : List String :=
  ["---", "id: " ++ page.id, "url: " ++ page.url,
   "last_edited_time: " ++ page.last_edited_time,
   "mirror_generated_at: " ++ now, "---", "", "# " ++ page_title page, "",
   "## Content", ""]

/-- Translation of `_write_page_markdown_async`'s error structure: the
content render is guarded by try/except — on failure the issue is
recorded in `_inaccessible_blocks` and a placeholder line is written
instead of the content — while the final `write_text` is unguarded and
propagates its error.  Returns the written lines and the updated report,
or the write error. -/
def write_page_markdown (env : TaskEnv) (page : NPage) (content : List String)
    (now : String) (report : List (String × String × String)) :
    Except String (List String × List (String × String × String)) :=
  let body := if env.renderFails
    then ["- (content not accessible; check access report)"]
    else content
  let report2 := if env.renderFails
    then report ++ [(page.id, page.id, env.renderMsg)]
    else report
  if env.writeFails then Except.error "write failed"
  else Except.ok (pageHeaderLines page now ++ body ++ [""], report2)

/-- The per-page tasks of `_write_pages_async` under the error model,
sequentially: an archived page is skipped; otherwise the page is
rendered and written, its `(id, fingerprint)` entry is appended to the
results that become the new index, and — because `handle` has no
`except` clause — a write error aborts the whole phase. -/
def gather_pages (pages : PageCache) (env : String → TaskEnv)
    (content : String → List String) (now : String) :
    List String → List (String × String) → List (String × String × String) →
    Except String (List (String × String) × List (String × String × String))
  | [], results, report => Except.ok (results, report)
  | pid :: rest, results, report =>
    let page := ensure_page pages pid
    if page.archived then gather_pages pages env content now rest results report
    else
      match write_page_markdown (env pid) page (content pid) now report with
      | Except.error e => Except.error e
      | Except.ok (_, report2) =>
        gather_pages pages env content now rest
          (results ++ [(pid, page.last_edited_time)]) report2

theorem lookupId_some_mem {α : Type} {m : List (String × α)} {k : String} {v : α}
    (h : lookupId m k = some v) : k ∈ m.map Prod.fst := by
  unfold lookupId at h
  rcases Option.map_eq_some'.1 h with ⟨kv, hfind, -⟩
  have hmem := List.mem_of_find?_eq_some hfind
  have hbeq := List.find?_some hfind
  have hk : kv.1 = k := by simpa using hbeq
  exact hk ▸ List.mem_map_of_mem Prod.fst hmem

theorem ensure_page_of_lookup_none {pages : PageCache} {pid : String}
    (h : lookupId pages pid = none) :
    ensure_page pages pid = { id := pid, object := "page", properties := [],
                              parent := none, archived := false, last_edited_time := "" } := by
  simp [ensure_page, h]

theorem lookup_some_of_parent_some {pages : PageCache} {pid : String} {pr : NParent}
    (h : (ensure_page pages pid).parent = some pr) :
    lookupId pages pid = some (ensure_page pages pid) := by
  cases hl : lookupId pages pid with
  | none => rw [ensure_page_of_lookup_none hl] at h; simp at h
  | some v => simp [ensure_page, hl]

theorem freeKeyCount_cons {pages : PageCache} {stack : List String} {pid : String}
    (hk : pid ∈ cacheKeys pages) (hs : pid ∉ stack) :
    freeKeyCount pages (pid :: stack) + 1 = freeKeyCount pages stack := by
  have hmem : pid ∈ (cacheKeys pages).filter (fun k => k ∉ stack) :=
    Finset.mem_filter.2 ⟨hk, hs⟩
  have hfe : (cacheKeys pages).filter (fun k => k ∉ (pid :: stack))
      = ((cacheKeys pages).filter (fun k => k ∉ stack)).erase pid := by
    ext k
    simp only [Finset.mem_filter, Finset.mem_erase, List.mem_cons]
    tauto
  have hpos : 0 < ((cacheKeys pages).filter (fun k => k ∉ stack)).card :=
    Finset.card_pos.2 ⟨pid, hmem⟩
  rw [freeKeyCount, freeKeyCount, hfe, Finset.card_erase_of_mem hmem]
  omega

theorem freeKeyCount_le_length (pages : PageCache) (stack : List String) :
    freeKeyCount pages stack ≤ pages.length := by
  calc freeKeyCount pages stack ≤ (cacheKeys pages).card := Finset.card_filter_le _ _
    _ ≤ (pages.map Prod.fst).length := List.toFinset_card_le _
    _ = pages.length := List.length_map _ _

theorem page_output_path_fuel_irrel (pages : PageCache) (dbs : DbCache) :
    ∀ f1 f2 : Nat, ∀ (memo : Memo) (stack : List String) (pid : String),
      freeKeyCount pages stack < f1 → freeKeyCount pages stack < f2 →
      page_output_path pages dbs f1 memo stack pid = page_output_path pages dbs f2 memo stack pid := by
  intro f1
  induction f1 with
  | zero => intro f2 memo stack pid h1 h2; omega
  | succ a ih =>
    intro f2 memo stack pid h1 h2
    cases f2 with
    | zero => omega
    | succ b =>
      cases hm : lookupId memo pid with
      | some p => simp [page_output_path, hm]
      | none =>
        by_cases hst : pid ∈ stack
        · simp [page_output_path, hm, hst]
        · cases hp : (ensure_page pages pid).parent with
          | none => simp [page_output_path, hm, hst, hp]
          | some pr =>
            cases pr with
            | workspace => simp [page_output_path, hm, hst, hp]
            | database_id did => simp [page_output_path, hm, hst, hp]
            | otherType tag => simp [page_output_path, hm, hst, hp]
            | page_id parentId =>
              have hkey : pid ∈ cacheKeys pages := by
                have hl := lookup_some_of_parent_some hp
                simpa [cacheKeys] using lookupId_some_mem hl
              have hcnt := freeKeyCount_cons hkey hst
              have hrec : page_output_path pages dbs a memo (pid :: stack) parentId
                  = page_output_path pages dbs b memo (pid :: stack) parentId := by
                apply ih b memo (pid :: stack) parentId <;> omega
              simp [page_output_path, hm, hst, hp, hrec]

/-- C5: for every cache the resolver's result is independent of the fuel
bound once the fuel exceeds the number of cached pages not yet on the
stack — the recursion depth is bounded, so resolution terminates and
never recurses infinitely; on the synthetic chain A→B→C→A every id
resolves, the resolved id is memoized, and a cycle member is placed under
the `_cycles` bucket at the mirror root. -/
theorem cycle_safe_resolution :
    (∀ (pages : PageCache) (dbs : DbCache) (f1 f2 : Nat) (memo : Memo)
        (stack : List String) (pid : String),
        freeKeyCount pages stack < f1 → freeKeyCount pages stack < f2 →
        page_output_path pages dbs f1 memo stack pid = page_output_path pages dbs f2 memo stack pid)
    ∧ (∀ pid ∈ (["A", "B", "C"] : List String),
        (page_output_path cyclePages [] 4 [] [] pid).isSome = true
        ∧ (page_output_path cyclePages [] 4 [] [] pid).bind (fun r => lookupId r.2 pid)
          = (page_output_path cyclePages [] 4 [] [] pid).map (fun r => r.1))
    ∧ ((page_output_path cyclePages [] 4 [] [] "A").map (fun r => r.1.head?)
        = some (some "_cycles")) := by
  refine ⟨page_output_path_fuel_irrel, ?_, ?_⟩
  · decide
  · decide

/-- Closed witness for `cycle_safe_resolution`: its fuel-independence
conjunct applied at the concrete cycle cache with fuels 4 and 99. -/
theorem cycle_safe_resolution_witness :
    page_output_path cyclePages [] 4 [] [] "A" = page_output_path cyclePages [] 99 [] [] "A" :=
  cycle_safe_resolution.1 cyclePages [] 4 99 [] [] "A" (by decide) (by decide)

/-- C10: an id absent from the caches is served by a non-None placeholder
object: its derived title falls back to "untitled_page" (pages) or
"untitled_db" (databases), the id suffix of an empty id falls back to
"unknown", and path resolution of an undiscovered id succeeds, placing it
under the `_other` bucket with the fallback-derived file name. -/
theorem placeholder_fallbacks :
    (∀ (pages : PageCache) (pid : String), lookupId pages pid = none →
        ensure_page pages pid = { id := pid, object := "page", properties := [],
                                  parent := none, archived := false, last_edited_time := "" })
    ∧ (∀ (pages : PageCache) (pid : String), lookupId pages pid = none →
        page_title (ensure_page pages pid) = "untitled_page")
    ∧ (∀ (dbs : DbCache) (did : String), lookupId dbs did = none →
        database_title (ensure_database dbs did) = "untitled_db")
    ∧ id8 "" = "unknown"
    ∧ (∀ (pages : PageCache) (dbs : DbCache) (pid : String) (fuel : Nat) (memo : Memo),
        lookupId pages pid = none → lookupId memo pid = none →
        page_output_path pages dbs (fuel + 1) memo [] pid =
          some (["_other", "untitled_page_" ++ id8 pid ++ ".md"],
                (pid, ["_other", "untitled_page_" ++ id8 pid ++ ".md"]) :: memo)) := by
  have huntitled : ∀ (pages : PageCache) (pid : String), lookupId pages pid = none →
      page_title (ensure_page pages pid) = "untitled_page" := by
    intro pages pid h
    rw [ensure_page_of_lookup_none h]
    rfl
  refine ⟨fun pages pid h => ensure_page_of_lookup_none h, huntitled, ?_, by decide, ?_⟩
  · intro dbs did h
    simp only [ensure_database, h, Option.getD_none]
    rfl
  · intro pages dbs pid fuel memo hpage hmemo
    have hpl := ensure_page_of_lookup_none hpage
    have hparent : (ensure_page pages pid).parent = none := by rw [hpl]
    have hfile : page_file_name (ensure_page pages pid) = "untitled_page_" ++ id8 pid ++ ".md" := by
      have hid : (ensure_page pages pid).id = pid := by rw [hpl]
      rw [page_file_name, huntitled pages pid hpage, hid]
      have hsafe : safe_name "untitled_page" "page" = "untitled_page" := by decide
      have happ : ("untitled_page" ++ "_" : String) = "untitled_page_" := rfl
      rw [hsafe, happ]
    simp [page_output_path, hmemo, hparent, hfile]

/-- Closed witness for `placeholder_fallbacks`: its resolver conjunct
applied to an undiscovered id with empty caches. -/
theorem placeholder_fallbacks_witness :
    page_output_path [] [] 1 [] [] "p-x" =
      some (["_other", "untitled_page_" ++ id8 "p-x" ++ ".md"],
            ("p-x", ["_other", "untitled_page_" ++ id8 "p-x" ++ ".md"]) :: []) :=
  placeholder_fallbacks.2.2.2.2 [] [] "p-x" 0 [] rfl rfl

theorem addDir_files (fs : FS) (d : List String) : (addDir fs d).files = fs.files := by
  unfold addDir; split <;> rfl

theorem foldl_addDir_files (l : List (List String)) :
    ∀ fs : FS, (l.foldl addDir fs).files = fs.files := by
  induction l with
  | nil => intro fs; rfl
  | cons d rest ih => intro fs; rw [List.foldl_cons, ih, addDir_files]

theorem mkdirParents_files (fs : FS) (dir : List String) :
    (mkdirParents fs dir).files = fs.files :=
  foldl_addDir_files _ fs

theorem cleanupAux_files (revPath : List String) : ∀ fs : FS,
    (cleanupAux fs revPath).files = fs.files := by
  induction revPath with
  | nil => intro fs; rfl
  | cons seg rest ih =>
    intro fs
    simp only [cleanupAux, List.reverse_cons]
    by_cases h1 : rest.reverse ++ [seg] ∈ fs.dirs
    · by_cases h2 : hasEntryUnder fs (rest.reverse ++ [seg]) = true
      · simp [h1, h2]
      · simp [h1, h2, ih]
    · simp [h1]

theorem cleanup_empty_dirs_files (fs : FS) (start : List String) :
    (cleanup_empty_dirs fs start).files = fs.files :=
  cleanupAux_files start.reverse fs

theorem deleteAndPrune_files (fs : FS) (p : List String) :
    (deleteAndPrune fs p).files = fs.files.filter (fun q => q ≠ p) := by
  unfold deleteAndPrune removeFile
  rw [cleanup_empty_dirs_files]

theorem mem_insertFile {fs : FS} {p q : List String} :
    q ∈ (insertFile fs p).files ↔ q = p ∨ q ∈ fs.files := by
  unfold insertFile
  split <;> rename_i h <;> simp [List.mem_cons]
  intro hq; subst hq; tauto

theorem self_mem_insertFile (fs : FS) (p : List String) : p ∈ (insertFile fs p).files :=
  mem_insertFile.2 (Or.inl rfl)

theorem not_mem_deleteAndPrune (fs : FS) (p : List String) :
    p ∉ (deleteAndPrune fs p).files := by
  rw [deleteAndPrune_files]
  simp

theorem strMk_append (a b : List Char) : String.mk a ++ String.mk b = String.mk (a ++ b) := rfl

theorem splitPathAux_ne_nil (cs : List Char) : ∀ acc, splitPathAux acc cs ≠ [] := by
  induction cs with
  | nil => intro acc; simp [splitPathAux]
  | cons c rest ih =>
    intro acc
    by_cases hc : c = '/'
    · simp [splitPathAux, hc]
    · simp only [splitPathAux, if_neg hc]
      exact ih (c :: acc)

theorem joinPath_splitPathAux (cs : List Char) : ∀ acc,
    joinPath ((splitPathAux acc cs).map String.mk) = String.mk (acc.reverse ++ cs) := by
  induction cs with
  | nil => intro acc; simp [splitPathAux, joinPath]
  | cons c rest ih =>
    intro acc
    by_cases hc : c = '/'
    · subst hc
      obtain ⟨q, qs, hq⟩ : ∃ q qs, splitPathAux [] rest = q :: qs := by
        cases h : splitPathAux [] rest with
        | nil => exact absurd h (splitPathAux_ne_nil rest [])
        | cons q qs => exact ⟨q, qs, rfl⟩
      have hih := ih []
      rw [hq] at hih
      simp only [List.reverse_nil, List.nil_append, List.map_cons] at hih
      simp only [splitPathAux, if_pos rfl, hq, List.map_cons, joinPath]
      rw [hih]
      have hslash : ("/" : String) = String.mk ['/'] := rfl
      rw [hslash, strMk_append, strMk_append]
      simp
    · simp only [splitPathAux, if_neg hc]
      rw [ih (c :: acc)]
      simp

theorem joinPath_splitPath (s : String) : joinPath (splitPath s) = s := by
  have h := joinPath_splitPathAux s.toList []
  simpa [splitPath] using h

theorem splitPath_injOn_join {p : String} {dest : List String}
    (h : splitPath p = dest) : p = joinPath dest := by
  rw [← h, joinPath_splitPath]

/-- C2: the per-object incremental decision of `_write_pages_async`
and `_write_databases_async`.  For pages and for databases alike: with a
previous entry whose fingerprint and path both match and whose target
file exists, the object is skipped — the filesystem's files are
unchanged, nothing is written, and the entry is re-recorded with count 0.
In every other case the object's file is written (count 1).  When the
recorded old path is non-empty, differs from the new path and the old
file exists, the old file is additionally deleted (with empty ancestor
directories pruned) and the deletion counter is bumped. -/
theorem incremental_diff_decision (pages : PageCache) (prevPages : Index) (st : RunState)
    (pid : String) (dest : List String)
    (dbs : DbCache) (prevDbs : Index) (std : RunState) (did : String)
    (harch : (ensure_page pages pid).archived = false)
    (harchd : (ensure_database dbs did).archived = false) :
    (∀ prevE, lookupId prevPages pid = some prevE →
      prevE.last_edited_time = (ensure_page pages pid).last_edited_time →
      prevE.path = joinPath dest →
      dest ∈ (mkdirParents st.fs dest.dropLast).files →
      page_step pages true prevPages st (pid, dest)
        = { st with fs := mkdirParents st.fs dest.dropLast,
                    results := st.results ++
                      [(pid, ⟨(ensure_page pages pid).last_edited_time, joinPath dest⟩, 0)] }
        ∧ (page_step pages true prevPages st (pid, dest)).fs.files = st.fs.files
        ∧ (page_step pages true prevPages st (pid, dest)).writtenPaths = st.writtenPaths)
    ∧ ((∀ prevE, lookupId prevPages pid = some prevE →
          ¬(prevE.last_edited_time = (ensure_page pages pid).last_edited_time
            ∧ prevE.path = joinPath dest
            ∧ dest ∈ (mkdirParents st.fs dest.dropLast).files)) →
        (page_step pages true prevPages st (pid, dest)).writtenPaths = st.writtenPaths ++ [dest]
        ∧ dest ∈ (page_step pages true prevPages st (pid, dest)).fs.files
        ∧ (page_step pages true prevPages st (pid, dest)).results = st.results ++
            [(pid, ⟨(ensure_page pages pid).last_edited_time, joinPath dest⟩, 1)])
    ∧ (∀ prevE, lookupId prevPages pid = some prevE →
        prevE.path ≠ "" →
        prevE.path ≠ joinPath dest →
        splitPath prevE.path ∈ (mkdirParents st.fs dest.dropLast).files →
        splitPath prevE.path ∉ (page_step pages true prevPages st (pid, dest)).fs.files
        ∧ (page_step pages true prevPages st (pid, dest)).deletions = st.deletions + 1)
    ∧ (∀ prevE, lookupId prevDbs did = some prevE →
        prevE.last_edited_time = (ensure_database dbs did).last_edited_time →
        prevE.path = joinPath (dbDest dbs did) →
        dbDest dbs did ∈ (mkdirParents std.fs [database_folder_name dbs did]).files →
        db_step dbs true prevDbs std did
          = { std with fs := mkdirParents std.fs [database_folder_name dbs did],
                       results := std.results ++
                         [(did, ⟨(ensure_database dbs did).last_edited_time,
                                 joinPath (dbDest dbs did)⟩, 0)] }
          ∧ (db_step dbs true prevDbs std did).fs.files = std.fs.files
          ∧ (db_step dbs true prevDbs std did).writtenPaths = std.writtenPaths)
    ∧ ((∀ prevE, lookupId prevDbs did = some prevE →
          ¬(prevE.last_edited_time = (ensure_database dbs did).last_edited_time
            ∧ prevE.path = joinPath (dbDest dbs did)
            ∧ dbDest dbs did ∈ (mkdirParents std.fs [database_folder_name dbs did]).files)) →
        (db_step dbs true prevDbs std did).writtenPaths
            = std.writtenPaths ++ [dbDest dbs did]
        ∧ dbDest dbs did ∈ (db_step dbs true prevDbs std did).fs.files
        ∧ (db_step dbs true prevDbs std did).results = std.results ++
            [(did, ⟨(ensure_database dbs did).last_edited_time,
                    joinPath (dbDest dbs did)⟩, 1)])
    ∧ (∀ prevE, lookupId prevDbs did = some prevE →
        prevE.path ≠ "" →
        prevE.path ≠ joinPath (dbDest dbs did) →
        splitPath prevE.path ∈ (mkdirParents std.fs [database_folder_name dbs did]).files →
        splitPath prevE.path ∉ (db_step dbs true prevDbs std did).fs.files
        ∧ (db_step dbs true prevDbs std did).deletions = std.deletions + 1) := by
  refine ⟨?_, ?_, ?_, ?_, ?_, ?_⟩
  · intro prevE hlk hle hpath hexist
    have hexist2 : dest ∈ st.fs.files := by
      rw [mkdirParents_files] at hexist; exact hexist
    simp [page_step, harch, hlk, mkdirParents_files, hle, hpath, hexist2]
  · intro hnot
    cases hlk : lookupId prevPages pid with
    | none =>
      simp [page_step, harch, hlk, self_mem_insertFile]
    | some prevE =>
      have hns := hnot prevE hlk
      simp only [page_step, harch, hlk]
      simp [hns]
      split <;> simp [self_mem_insertFile]
  · intro prevE hlk hne hnepath hexist
    have hnotskip : ¬(prevE.last_edited_time = (ensure_page pages pid).last_edited_time
        ∧ prevE.path = joinPath dest
        ∧ dest ∈ (mkdirParents st.fs dest.dropLast).files) := by
      rintro ⟨-, h2, -⟩; exact hnepath h2
    have hsplitne : splitPath prevE.path ≠ dest := by
      intro h; exact hnepath (splitPath_injOn_join h)
    have hdelcond : prevE.path ≠ "" ∧ prevE.path ≠ joinPath dest
        ∧ splitPath prevE.path ∈ (mkdirParents st.fs dest.dropLast).files :=
      ⟨hne, hnepath, hexist⟩
    simp only [page_step, harch, hlk]
    simp only [Bool.false_eq_true, if_false, if_true]
    rw [if_neg hnotskip, if_pos hdelcond]
    constructor
    · intro hmem
      rcases mem_insertFile.1 hmem with h | h
      · exact hsplitne h
      · rw [deleteAndPrune_files] at h
        simp at h
    · rfl
  · intro prevE hlk hle hpath hexist
    have hexist2 : [database_folder_name dbs did, "__database.md"] ∈ std.fs.files := by
      rw [mkdirParents_files] at hexist
      simpa [dbDest] using hexist
    simp only [dbDest] at hpath
    simp [db_step, harchd, hlk, mkdirParents_files, hle, hpath, hexist2, dbDest]
  · intro hnot
    cases hlk : lookupId prevDbs did with
    | none =>
      simp [db_step, harchd, hlk, self_mem_insertFile, dbDest]
    | some prevE =>
      have hns := hnot prevE hlk
      simp only [dbDest] at hns
      simp only [db_step, harchd, hlk]
      simp [hns, dbDest]
      split <;> simp [self_mem_insertFile]
  · intro prevE hlk hne hnepath hexist
    simp only [dbDest] at hnepath hexist
    have hnotskip : ¬(prevE.last_edited_time = (ensure_database dbs did).last_edited_time
        ∧ prevE.path = joinPath ([database_folder_name dbs did] ++ ["__database.md"])
        ∧ [database_folder_name dbs did] ++ ["__database.md"]
            ∈ (mkdirParents std.fs [database_folder_name dbs did]).files) := by
      rintro ⟨-, h2, -⟩; exact hnepath h2
    have hsplitne : splitPath prevE.path
        ≠ [database_folder_name dbs did] ++ ["__database.md"] := by
      intro h; exact hnepath (splitPath_injOn_join h)
    have hdelcond : prevE.path ≠ ""
        ∧ prevE.path ≠ joinPath ([database_folder_name dbs did] ++ ["__database.md"])
        ∧ splitPath prevE.path
            ∈ (mkdirParents std.fs [database_folder_name dbs did]).files :=
      ⟨hne, hnepath, hexist⟩
    simp only [db_step, harchd, hlk]
    simp only [Bool.false_eq_true, if_false, if_true]
    rw [if_neg hnotskip, if_pos hdelcond]
    constructor
    · intro hmem
      rcases mem_insertFile.1 hmem with h | h
      · exact hsplitne h
      · rw [deleteAndPrune_files] at h
        simp at h
    · simp [dbDest]

/-- Closed witness for `incremental_diff_decision`: a concrete moved page
and a concrete moved database, each of whose old file is deleted and
whose deletion is counted. -/
theorem incremental_diff_decision_witness :
    (splitPath "old/f.md" ∉ (page_step [("p1", wsPage)] true
        [("p1", ⟨"tX", "old/f.md"⟩)]
        ⟨⟨[["old", "f.md"]], [["old"]]⟩, [], 0, []⟩
        ("p1", ["_workspace", "untitled_page_p1.md"])).fs.files
    ∧ (page_step [("p1", wsPage)] true
        [("p1", ⟨"tX", "old/f.md"⟩)]
        ⟨⟨[["old", "f.md"]], [["old"]]⟩, [], 0, []⟩
        ("p1", ["_workspace", "untitled_page_p1.md"])).deletions = 0 + 1)
    ∧ (splitPath "old/db.md" ∉ (db_step [("d1", tasksDb)] true
        [("d1", ⟨"tX", "old/db.md"⟩)]
        ⟨⟨[["old", "db.md"]], [["old"]]⟩, [], 0, []⟩ "d1").fs.files
    ∧ (db_step [("d1", tasksDb)] true
        [("d1", ⟨"tX", "old/db.md"⟩)]
        ⟨⟨[["old", "db.md"]], [["old"]]⟩, [], 0, []⟩ "d1").deletions = 0 + 1) :=
  ⟨(incremental_diff_decision [("p1", wsPage)] [("p1", ⟨"tX", "old/f.md"⟩)]
      ⟨⟨[["old", "f.md"]], [["old"]]⟩, [], 0, []⟩ "p1" ["_workspace", "untitled_page_p1.md"]
      [("d1", tasksDb)] [("d1", ⟨"tX", "old/db.md"⟩)]
      ⟨⟨[["old", "db.md"]], [["old"]]⟩, [], 0, []⟩ "d1"
      (by decide) (by decide)).2.2.1
    ⟨"tX", "old/f.md"⟩ (by decide) (by decide) (by decide) (by decide),
   (incremental_diff_decision [("p1", wsPage)] [("p1", ⟨"tX", "old/f.md"⟩)]
      ⟨⟨[["old", "f.md"]], [["old"]]⟩, [], 0, []⟩ "p1" ["_workspace", "untitled_page_p1.md"]
      [("d1", tasksDb)] [("d1", ⟨"tX", "old/db.md"⟩)]
      ⟨⟨[["old", "db.md"]], [["old"]]⟩, [], 0, []⟩ "d1"
      (by decide) (by decide)).2.2.2.2.2
    ⟨"tX", "old/db.md"⟩ (by decide) (by decide) (by decide) (by decide)⟩

/-- One reconciliation step of `_cleanup_removed` only removes files. -/
theorem cleanup_removed_step_subset (newIndex : Index) (kv : String × IndexEntry)
    (acc : FS × Nat) :
    ((if lookupId newIndex kv.1 = none then
        if kv.2.path ≠ "" ∧ splitPath kv.2.path ∈ acc.1.files then
          (deleteAndPrune acc.1 (splitPath kv.2.path), acc.2 + 1)
        else acc
      else acc) : FS × Nat).1.files ⊆ acc.1.files := by
  split
  · split
    · rename_i h1 h2
      simp only [deleteAndPrune_files]
      intro x hx
      exact (List.mem_filter.1 hx).1
    · exact fun x hx => hx
  · exact fun x hx => hx

theorem cleanup_removed_subset (prevIndex : Index) (newIndex : Index) :
    ∀ acc : FS × Nat, (cleanup_removed prevIndex newIndex acc).1.files ⊆ acc.1.files := by
  induction prevIndex with
  | nil => intro acc; exact fun x hx => hx
  | cons kv rest ih =>
    intro acc
    unfold cleanup_removed
    rw [List.foldl_cons]
    intro x hx
    have h1 := ih _ hx
    exact cleanup_removed_step_subset newIndex kv acc h1

/-- C8: during reconciliation, every id of the previous index that is
absent from the new index has its recorded file (when the recorded path
is non-empty) removed from the filesystem; pruning deletes only existing
directories and never touches files; reaching the mirror root stops the
pruning walk; and the persisted index is exactly the new index, so the
id is absent from it. -/
theorem deletion_propagation (prevIndex newIndex : Index) (fs : FS) (dels : Nat) :
    (∀ i e, (i, e) ∈ prevIndex → lookupId newIndex i = none → e.path ≠ "" →
      splitPath e.path ∉ (cleanup_removed prevIndex newIndex (fs, dels)).1.files)
    ∧ (∀ fs2 : FS, cleanup_empty_dirs fs2 [] = fs2)
    ∧ (∀ (fs2 : FS) (start : List String),
        (cleanup_empty_dirs fs2 start).files = fs2.files)
    ∧ (∀ (now : String) (dbsIdx : Index) (i : String), lookupId newIndex i = none →
        lookupId (save_index_payload now newIndex dbsIdx).pages i = none) := by
  refine ⟨?_, fun fs2 => rfl, fun fs2 start => cleanup_empty_dirs_files fs2 start,
    fun now dbsIdx i h => h⟩
  intro i e hmem habs hne
  obtain ⟨l1, l2, hsplit⟩ := List.append_of_mem hmem
  subst hsplit
  unfold cleanup_removed
  rw [List.foldl_append, List.foldl_cons]
  set acc1 := l1.foldl (fun acc kv =>
    if lookupId newIndex kv.1 = none then
      if kv.2.path ≠ "" ∧ splitPath kv.2.path ∈ acc.1.files then
        (deleteAndPrune acc.1 (splitPath kv.2.path), acc.2 + 1)
      else acc
    else acc) (fs, dels) with hacc1
  have hstep : ∀ acc : FS × Nat, splitPath e.path ∉
      ((if lookupId newIndex i = none then
          if e.path ≠ "" ∧ splitPath e.path ∈ acc.1.files then
            (deleteAndPrune acc.1 (splitPath e.path), acc.2 + 1)
          else acc
        else acc) : FS × Nat).1.files ∨ False := by
    intro acc
    left
    rw [if_pos habs]
    by_cases hin : splitPath e.path ∈ acc.1.files
    · rw [if_pos ⟨hne, hin⟩]
      exact not_mem_deleteAndPrune _ _
    · rw [if_neg (fun h => hin h.2)]
      exact hin
  have hstep2 := (hstep acc1).resolve_right (fun h => h)
  intro hmem2
  exact hstep2 (cleanup_removed_subset l2 newIndex _ hmem2)

/-- Closed witness for `deletion_propagation`: a removed id's concrete
file is gone after reconciliation. -/
theorem deletion_propagation_witness :
    splitPath "a/b.md" ∉ (cleanup_removed [("x", ⟨"t", "a/b.md"⟩)] []
      (⟨[["a", "b.md"]], [["a"]]⟩, 0)).1.files :=
  (deletion_propagation [("x", ⟨"t", "a/b.md"⟩)] [] ⟨[["a", "b.md"]], [["a"]]⟩ 0).1
    "x" ⟨"t", "a/b.md"⟩ (by decide) rfl (by decide)

/-- C3 counterexample: starting from `staleIndex`, the first incremental
run writes the live page and then reconciliation deletes the removed
id's recorded file — which is the live page's own destination — so the
second incremental run with identical discovery performs one write, not
zero. -/
theorem idempotence_counterexample :
    (build_incremental aliasPages []
      (build_incremental aliasPages [] staleIndex [] emptyFS).pagesIndex
      (build_incremental aliasPages [] staleIndex [] emptyFS).dbsIndex
      (build_incremental aliasPages [] staleIndex [] emptyFS).fs).pagesWritten = 1 := by
  decide

theorem insertSorted_perm (a : String) : ∀ l : List String, List.Perm (insertSorted a l) (a :: l) := by
  intro l
  induction l with
  | nil => simp [insertSorted]
  | cons b rest ih =>
    by_cases hab : a ≤ b
    · simp [insertSorted, hab]
    · simp only [insertSorted, if_neg hab]
      exact List.Perm.trans (List.Perm.cons b ih) (List.Perm.swap a b rest)

theorem sortStrings_perm (l : List String) : List.Perm (sortStrings l) l := by
  induction l with
  | nil => exact List.Perm.refl []
  | cons a rest ih =>
    exact List.Perm.trans (insertSorted_perm a (sortStrings rest)) (List.Perm.cons a ih)

theorem sortStrings_nodup {l : List String} (h : l.Nodup) : (sortStrings l).Nodup :=
  (sortStrings_perm l).nodup_iff.2 h

theorem resolve_all_map_fst (pages : PageCache) (dbs : DbCache) :
    ∀ (ids : List String) (memo : Memo),
      (resolve_all pages dbs memo ids).1.map Prod.fst = ids := by
  intro ids
  induction ids with
  | nil => intro memo; rfl
  | cons pid rest ih =>
    intro memo
    simp [resolve_all, ih]

theorem pageDests_map_fst (pages : PageCache) (dbs : DbCache) :
    (pageDests pages dbs).map Prod.fst = sortStrings (pages.map Prod.fst) :=
  resolve_all_map_fst pages dbs _ []

theorem pageDests_nodup_fst (pages : PageCache) (dbs : DbCache)
    (h : (pages.map Prod.fst).Nodup) : ((pageDests pages dbs).map Prod.fst).Nodup := by
  rw [pageDests_map_fst]
  exact sortStrings_nodup h

theorem indexOfResults_append (a b : List (String × IndexEntry × Nat)) :
    indexOfResults (a ++ b) = indexOfResults a ++ indexOfResults b := by
  simp [indexOfResults]

theorem writtenOfResults_append (a b : List (String × IndexEntry × Nat)) :
    writtenOfResults (a ++ b) = writtenOfResults a + writtenOfResults b := by
  simp [writtenOfResults]

theorem lookupId_some_mem_pair {α : Type} {m : List (String × α)} {k : String} {v : α}
    (h : lookupId m k = some v) : (k, v) ∈ m := by
  unfold lookupId at h
  rcases Option.map_eq_some'.1 h with ⟨kv, hfind, hsnd⟩
  have hmem := List.mem_of_find?_eq_some hfind
  have hk : kv.1 = k := by simpa using List.find?_some hfind
  have : kv = (k, v) := by
    cases kv
    simp only at hk hsnd
    simp [hk, hsnd]
  exact this ▸ hmem

theorem page_step_of_archived (pages : PageCache) (incr : Bool) (P : Index)
    (st : RunState) (pd : String × List String)
    (ha : (ensure_page pages pd.1).archived = true) :
    page_step pages incr P st pd = st := by
  simp [page_step, ha]

theorem page_step_skip_eq (pages : PageCache) (P : Index) (st : RunState)
    (pd : String × List String)
    (ha : (ensure_page pages pd.1).archived = false)
    (hlk : lookupId P pd.1
      = some ⟨(ensure_page pages pd.1).last_edited_time, joinPath pd.2⟩)
    (hmem : pd.2 ∈ st.fs.files) :
    page_step pages true P st pd
      = { st with fs := mkdirParents st.fs (pd.2).dropLast,
                  results := st.results ++
                    [(pd.1, ⟨(ensure_page pages pd.1).last_edited_time, joinPath pd.2⟩, 0)] } := by
  have hmem2 : pd.2 ∈ (mkdirParents st.fs (pd.2).dropLast).files := by
    rw [mkdirParents_files]; exact hmem
  simp [page_step, ha, hlk, hmem2]

theorem page_step_writes_dest (pages : PageCache) (P : Index) (st : RunState)
    (pd : String × List String)
    (ha : (ensure_page pages pd.1).archived = false) :
    pd.2 ∈ (page_step pages true P st pd).fs.files := by
  simp only [page_step, ha, Bool.false_eq_true, if_false, if_true]
  cases hlk : lookupId P pd.1 with
  | none => exact self_mem_insertFile _ _
  | some prevE =>
    dsimp only
    by_cases hskip : prevE.last_edited_time = (ensure_page pages pd.1).last_edited_time
        ∧ prevE.path = joinPath pd.2 ∧ pd.2 ∈ (mkdirParents st.fs (pd.2).dropLast).files
    · rw [if_pos hskip]
      exact hskip.2.2
    · rw [if_neg hskip]
      split
      · exact self_mem_insertFile _ _
      · exact self_mem_insertFile _ _

theorem page_step_preserves_file (pages : PageCache) (P : Index) (st : RunState)
    (pd : String × List String) (x : List String)
    (hx : x ∈ st.fs.files)
    (hsafe : (ensure_page pages pd.1).archived = false →
      ∀ e, lookupId P pd.1 = some e → e.path ≠ joinPath pd.2 → splitPath e.path ≠ x) :
    x ∈ (page_step pages true P st pd).fs.files := by
  by_cases ha : (ensure_page pages pd.1).archived = true
  · rw [page_step_of_archived pages true P st pd ha]; exact hx
  · have ha2 : (ensure_page pages pd.1).archived = false := by
      cases h : (ensure_page pages pd.1).archived
      · rfl
      · exact absurd h ha
    have hx1 : x ∈ (mkdirParents st.fs (pd.2).dropLast).files := by
      rw [mkdirParents_files]; exact hx
    simp only [page_step, ha2, Bool.false_eq_true, if_false, if_true]
    cases hlk : lookupId P pd.1 with
    | none => exact mem_insertFile.2 (Or.inr hx1)
    | some prevE =>
      dsimp only
      by_cases hskip : prevE.last_edited_time = (ensure_page pages pd.1).last_edited_time
          ∧ prevE.path = joinPath pd.2 ∧ pd.2 ∈ (mkdirParents st.fs (pd.2).dropLast).files
      · rw [if_pos hskip]; exact hx1
      · rw [if_neg hskip]
        by_cases hdel : prevE.path ≠ "" ∧ prevE.path ≠ joinPath pd.2
            ∧ splitPath prevE.path ∈ (mkdirParents st.fs (pd.2).dropLast).files
        · rw [if_pos hdel]
          refine mem_insertFile.2 (Or.inr ?_)
          rw [deleteAndPrune_files]
          refine List.mem_filter.2 ⟨hx1, ?_⟩
          have hne := hsafe ha2 prevE hlk hdel.2.1
          simpa using fun hcontra => hne hcontra.symm
        · rw [if_neg hdel]
          exact mem_insertFile.2 (Or.inr hx1)

theorem foldl_page_step_preserves (pages : PageCache) (P : Index) :
    ∀ (dests : List (String × List String)) (st : RunState) (x : List String),
      x ∈ st.fs.files →
      (∀ pd ∈ dests, (ensure_page pages pd.1).archived = false →
        ∀ e, lookupId P pd.1 = some e → e.path ≠ joinPath pd.2 → splitPath e.path ≠ x) →
      x ∈ (dests.foldl (page_step pages true P) st).fs.files := by
  intro dests
  induction dests with
  | nil => intro st x hx hsafe; exact hx
  | cons pd rest ih =>
    intro st x hx hsafe
    rw [List.foldl_cons]
    refine ih _ x ?_ (fun qd hq => hsafe qd (List.mem_cons_of_mem pd hq))
    exact page_step_preserves_file pages P st pd x hx (hsafe pd (List.mem_cons_self pd rest))

theorem foldl_page_step_establishes (pages : PageCache) (P : Index) :
    ∀ (dests : List (String × List String)) (st : RunState) (pd : String × List String),
      pd ∈ dests →
      (ensure_page pages pd.1).archived = false →
      (∀ qd ∈ dests, (ensure_page pages qd.1).archived = false →
        ∀ e, lookupId P qd.1 = some e → e.path ≠ joinPath qd.2 → splitPath e.path ≠ pd.2) →
      pd.2 ∈ (dests.foldl (page_step pages true P) st).fs.files := by
  intro dests
  induction dests with
  | nil => intro st pd hmem; exact absurd hmem (List.not_mem_nil pd)
  | cons qd rest ih =>
    intro st pd hmem ha hsafe
    rw [List.foldl_cons]
    rcases List.mem_cons.1 hmem with heq | hmem2
    · subst heq
      refine foldl_page_step_preserves pages P rest _ pd.2 ?_
        (fun rd hr => hsafe rd (List.mem_cons_of_mem pd hr))
      exact page_step_writes_dest pages P st pd ha
    · exact ih _ pd hmem2 ha (fun rd hr => hsafe rd (List.mem_cons_of_mem qd hr))

theorem db_step_of_archived (dbs : DbCache) (incr : Bool) (P : Index)
    (st : RunState) (did : String)
    (ha : (ensure_database dbs did).archived = true) :
    db_step dbs incr P st did = st := by
  simp [db_step, ha]

theorem db_step_skip_eq (dbs : DbCache) (P : Index) (st : RunState) (did : String)
    (ha : (ensure_database dbs did).archived = false)
    (hlk : lookupId P did
      = some ⟨(ensure_database dbs did).last_edited_time, joinPath (dbDest dbs did)⟩)
    (hmem : dbDest dbs did ∈ st.fs.files) :
    db_step dbs true P st did
      = { st with fs := mkdirParents st.fs [database_folder_name dbs did],
                  results := st.results ++
                    [(did, ⟨(ensure_database dbs did).last_edited_time,
                            joinPath (dbDest dbs did)⟩, 0)] } := by
  have hmem2 : dbDest dbs did ∈ (mkdirParents st.fs [database_folder_name dbs did]).files := by
    rw [mkdirParents_files]; exact hmem
  simp only [dbDest] at hlk hmem2
  simp [db_step, ha, hlk, hmem2, dbDest]

theorem db_step_writes_dest (dbs : DbCache) (P : Index) (st : RunState) (did : String)
    (ha : (ensure_database dbs did).archived = false) :
    dbDest dbs did ∈ (db_step dbs true P st did).fs.files := by
  simp only [db_step, ha, Bool.false_eq_true, if_false, if_true]
  cases hlk : lookupId P did with
  | none => exact self_mem_insertFile _ _
  | some prevE =>
    dsimp only
    by_cases hskip : prevE.last_edited_time = (ensure_database dbs did).last_edited_time
        ∧ prevE.path = joinPath ([database_folder_name dbs did] ++ ["__database.md"])
        ∧ [database_folder_name dbs did] ++ ["__database.md"]
            ∈ (mkdirParents st.fs [database_folder_name dbs did]).files
    · rw [if_pos hskip]
      exact hskip.2.2
    · rw [if_neg hskip]
      split
      · exact self_mem_insertFile _ _
      · exact self_mem_insertFile _ _

theorem db_step_preserves_file (dbs : DbCache) (P : Index) (st : RunState)
    (did : String) (x : List String)
    (hx : x ∈ st.fs.files)
    (hsafe : (ensure_database dbs did).archived = false →
      ∀ e, lookupId P did = some e → e.path ≠ joinPath (dbDest dbs did) →
        splitPath e.path ≠ x) :
    x ∈ (db_step dbs true P st did).fs.files := by
  by_cases ha : (ensure_database dbs did).archived = true
  · rw [db_step_of_archived dbs true P st did ha]; exact hx
  · have ha2 : (ensure_database dbs did).archived = false := by
      cases h : (ensure_database dbs did).archived
      · rfl
      · exact absurd h ha
    have hx1 : x ∈ (mkdirParents st.fs [database_folder_name dbs did]).files := by
      rw [mkdirParents_files]; exact hx
    simp only [db_step, ha2, Bool.false_eq_true, if_false, if_true]
    cases hlk : lookupId P did with
    | none => exact mem_insertFile.2 (Or.inr hx1)
    | some prevE =>
      dsimp only
      by_cases hskip : prevE.last_edited_time = (ensure_database dbs did).last_edited_time
          ∧ prevE.path = joinPath ([database_folder_name dbs did] ++ ["__database.md"])
          ∧ [database_folder_name dbs did] ++ ["__database.md"]
              ∈ (mkdirParents st.fs [database_folder_name dbs did]).files
      · rw [if_pos hskip]; exact hx1
      · rw [if_neg hskip]
        by_cases hdel : prevE.path ≠ ""
            ∧ prevE.path ≠ joinPath ([database_folder_name dbs did] ++ ["__database.md"])
            ∧ splitPath prevE.path ∈ (mkdirParents st.fs [database_folder_name dbs did]).files
        · rw [if_pos hdel]
          refine mem_insertFile.2 (Or.inr ?_)
          rw [deleteAndPrune_files]
          refine List.mem_filter.2 ⟨hx1, ?_⟩
          have hne := hsafe ha2 prevE hlk (by simpa [dbDest] using hdel.2.1)
          simpa using fun hcontra => hne hcontra.symm
        · rw [if_neg hdel]
          exact mem_insertFile.2 (Or.inr hx1)

theorem foldl_db_step_preserves (dbs : DbCache) (P : Index) :
    ∀ (dids : List String) (st : RunState) (x : List String),
      x ∈ st.fs.files →
      (∀ did ∈ dids, (ensure_database dbs did).archived = false →
        ∀ e, lookupId P did = some e → e.path ≠ joinPath (dbDest dbs did) →
          splitPath e.path ≠ x) →
      x ∈ (dids.foldl (db_step dbs true P) st).fs.files := by
  intro dids
  induction dids with
  | nil => intro st x hx hsafe; exact hx
  | cons did rest ih =>
    intro st x hx hsafe
    rw [List.foldl_cons]
    refine ih _ x ?_ (fun qd hq => hsafe qd (List.mem_cons_of_mem did hq))
    exact db_step_preserves_file dbs P st did x hx (hsafe did (List.mem_cons_self did rest))

theorem foldl_db_step_establishes (dbs : DbCache) (P : Index) :
    ∀ (dids : List String) (st : RunState) (did : String),
      did ∈ dids →
      (ensure_database dbs did).archived = false →
      (∀ qd ∈ dids, (ensure_database dbs qd).archived = false →
        ∀ e, lookupId P qd = some e → e.path ≠ joinPath (dbDest dbs qd) →
          splitPath e.path ≠ dbDest dbs did) →
      dbDest dbs did ∈ (dids.foldl (db_step dbs true P) st).fs.files := by
  intro dids
  induction dids with
  | nil => intro st did hmem; exact absurd hmem (List.not_mem_nil did)
  | cons qd rest ih =>
    intro st did hmem ha hsafe
    rw [List.foldl_cons]
    rcases List.mem_cons.1 hmem with heq | hmem2
    · subst heq
      refine foldl_db_step_preserves dbs P rest _ (dbDest dbs did) ?_
        (fun rd hr => hsafe rd (List.mem_cons_of_mem did hr))
      exact db_step_writes_dest dbs P st did ha
    · exact ih _ did hmem2 ha (fun rd hr => hsafe rd (List.mem_cons_of_mem qd hr))

theorem cleanup_removed_preserves (newIdx : Index) :
    ∀ (P : Index) (acc : FS × Nat) (x : List String),
      x ∈ acc.1.files →
      (∀ kv ∈ P, lookupId newIdx kv.1 = none → splitPath kv.2.path ≠ x) →
      x ∈ (cleanup_removed P newIdx acc).1.files := by
  intro P
  induction P with
  | nil => intro acc x hx hsafe; exact hx
  | cons kv rest ih =>
    intro acc x hx hsafe
    unfold cleanup_removed at ih ⊢
    rw [List.foldl_cons]
    refine ih _ x ?_ (fun qv hq => hsafe qv (List.mem_cons_of_mem kv hq))
    by_cases hrm : lookupId newIdx kv.1 = none
    · rw [if_pos hrm]
      by_cases hdel : kv.2.path ≠ "" ∧ splitPath kv.2.path ∈ acc.1.files
      · rw [if_pos hdel]
        simp only [deleteAndPrune_files]
        refine List.mem_filter.2 ⟨hx, ?_⟩
        have hne := hsafe kv (List.mem_cons_self kv rest) hrm
        simpa using fun hcontra => hne hcontra.symm
      · rw [if_neg hdel]; exact hx
    · rw [if_neg hrm]; exact hx

theorem cleanup_removed_noop (newIdx : Index) :
    ∀ (P : Index) (acc : FS × Nat),
      (∀ kv ∈ P, lookupId newIdx kv.1 ≠ none) →
      cleanup_removed P newIdx acc = acc := by
  intro P
  induction P with
  | nil => intro acc h; rfl
  | cons kv rest ih =>
    intro acc h
    unfold cleanup_removed at ih ⊢
    rw [List.foldl_cons, if_neg (h kv (List.mem_cons_self kv rest))]
    exact ih acc (fun qv hq => h qv (List.mem_cons_of_mem kv hq))

theorem lookupId_cons_self {α : Type} (k : String) (v : α) (tail : List (String × α)) :
    lookupId ((k, v) :: tail) k = some v := by
  simp [lookupId]

theorem lookupId_cons_ne {α : Type} (q k : String) (v : α) (tail : List (String × α))
    (h : q ≠ k) : lookupId ((q, v) :: tail) k = lookupId tail k := by
  simp [lookupId, List.find?_cons_of_neg, h]

theorem nodup_fst_pair_eq {α : Type} :
    ∀ (l : List (String × α)), (l.map Prod.fst).Nodup →
      ∀ a ∈ l, ∀ b ∈ l, a.1 = b.1 → a = b := by
  intro l
  induction l with
  | nil => intro _ a ha; exact absurd ha (List.not_mem_nil a)
  | cons c rest ih =>
    intro hnd a ha b hb hab
    rw [List.map_cons, List.nodup_cons] at hnd
    rcases List.mem_cons.1 ha with rfl | ha2 <;> rcases List.mem_cons.1 hb with rfl | hb2
    · rfl
    · exact absurd (hab ▸ List.mem_map_of_mem Prod.fst hb2) hnd.1
    · exact absurd (hab ▸ List.mem_map_of_mem Prod.fst ha2) hnd.1
    · exact ih hnd.2 a ha2 b hb2 hab

theorem page_step_index (pages : PageCache) (incr : Bool) (P : Index)
    (st : RunState) (pd : String × List String) :
    indexOfResults (page_step pages incr P st pd).results
      = indexOfResults st.results ++
        (if (ensure_page pages pd.1).archived = true then []
         else [(pd.1, ⟨(ensure_page pages pd.1).last_edited_time, joinPath pd.2⟩)]) := by
  by_cases ha : (ensure_page pages pd.1).archived = true
  · simp [page_step_of_archived pages incr P st pd ha, ha]
  · have ha2 : (ensure_page pages pd.1).archived = false := by
      cases h : (ensure_page pages pd.1).archived
      · rfl
      · exact absurd h ha
    simp only [page_step, ha2, Bool.false_eq_true, if_false, ha]
    cases incr with
    | false => simp [indexOfResults]
    | true =>
      simp only [if_true]
      cases hlk : lookupId P pd.1 with
      | none => simp [indexOfResults]
      | some prevE =>
        dsimp only
        split
        · simp [indexOfResults]
        · split <;> simp [indexOfResults]

theorem foldl_page_step_index (pages : PageCache) (incr : Bool) (P : Index) :
    ∀ (dests : List (String × List String)) (st : RunState),
      indexOfResults (dests.foldl (page_step pages incr P) st).results
        = indexOfResults st.results ++ phaseEntries pages dests := by
  intro dests
  induction dests with
  | nil => intro st; simp [phaseEntries]
  | cons pd rest ih =>
    intro st
    rw [List.foldl_cons, ih, page_step_index]
    by_cases ha : (ensure_page pages pd.1).archived = true
    · simp [phaseEntries, ha]
    · have ha2 : (ensure_page pages pd.1).archived = false := by
        cases h : (ensure_page pages pd.1).archived
        · rfl
        · exact absurd h ha
      simp [phaseEntries, ha2]

theorem db_step_index (dbs : DbCache) (incr : Bool) (P : Index)
    (st : RunState) (did : String) :
    indexOfResults (db_step dbs incr P st did).results
      = indexOfResults st.results ++
        (if (ensure_database dbs did).archived = true then []
         else [(did, ⟨(ensure_database dbs did).last_edited_time,
                      joinPath (dbDest dbs did)⟩)]) := by
  by_cases ha : (ensure_database dbs did).archived = true
  · simp [db_step_of_archived dbs incr P st did ha, ha]
  · have ha2 : (ensure_database dbs did).archived = false := by
      cases h : (ensure_database dbs did).archived
      · rfl
      · exact absurd h ha
    simp only [db_step, ha2, Bool.false_eq_true, if_false, ha, dbDest]
    cases incr with
    | false => simp [indexOfResults]
    | true =>
      simp only [if_true]
      cases hlk : lookupId P did with
      | none => simp [indexOfResults]
      | some prevE =>
        dsimp only
        split
        · simp [indexOfResults]
        · split <;> simp [indexOfResults]

theorem foldl_db_step_index (dbs : DbCache) (incr : Bool) (P : Index) :
    ∀ (dids : List String) (st : RunState),
      indexOfResults (dids.foldl (db_step dbs incr P) st).results
        = indexOfResults st.results ++ dbPhaseEntries dbs dids := by
  intro dids
  induction dids with
  | nil => intro st; simp [dbPhaseEntries]
  | cons did rest ih =>
    intro st
    rw [List.foldl_cons, ih, db_step_index]
    by_cases ha : (ensure_database dbs did).archived = true
    · simp [dbPhaseEntries, ha]
    · have ha2 : (ensure_database dbs did).archived = false := by
        cases h : (ensure_database dbs did).archived
        · rfl
        · exact absurd h ha
      simp [dbPhaseEntries, ha2]

theorem lookupId_phaseEntries (pages : PageCache) :
    ∀ (dests : List (String × List String)), ((dests.map Prod.fst).Nodup) →
      ∀ pd ∈ dests, (ensure_page pages pd.1).archived = false →
      lookupId (phaseEntries pages dests) pd.1
        = some ⟨(ensure_page pages pd.1).last_edited_time, joinPath pd.2⟩ := by
  intro dests
  induction dests with
  | nil => intro _ pd hmem; exact absurd hmem (List.not_mem_nil pd)
  | cons qd rest ih =>
    intro hnd pd hmem ha
    rw [List.map_cons, List.nodup_cons] at hnd
    rcases List.mem_cons.1 hmem with rfl | hmem2
    · simp only [phaseEntries, List.filterMap_cons, ha, Bool.false_eq_true, if_false]
      exact lookupId_cons_self _ _ _
    · have hne : qd.1 ≠ pd.1 := by
        intro h
        exact hnd.1 (h ▸ List.mem_map_of_mem Prod.fst hmem2)
      by_cases haq : (ensure_page pages qd.1).archived = true
      · simp only [phaseEntries, List.filterMap_cons, haq, if_true]
        exact ih hnd.2 pd hmem2 ha
      · have haq2 : (ensure_page pages qd.1).archived = false := by
          cases h : (ensure_page pages qd.1).archived
          · rfl
          · exact absurd h haq
        simp only [phaseEntries, List.filterMap_cons, haq2, Bool.false_eq_true, if_false]
        rw [lookupId_cons_ne qd.1 pd.1 _ _ hne]
        exact ih hnd.2 pd hmem2 ha

theorem mem_phaseEntries (pages : PageCache) (dests : List (String × List String))
    (kv : String × IndexEntry) (h : kv ∈ phaseEntries pages dests) :
    ∃ pd ∈ dests, (ensure_page pages pd.1).archived = false ∧ kv.1 = pd.1 := by
  rcases List.mem_filterMap.1 h with ⟨pd, hpd, hf⟩
  by_cases ha : (ensure_page pages pd.1).archived = true
  · rw [if_pos ha] at hf; exact absurd hf (by simp)
  · have ha2 : (ensure_page pages pd.1).archived = false := by
      cases h2 : (ensure_page pages pd.1).archived
      · rfl
      · exact absurd h2 ha
    rw [if_neg ha] at hf
    refine ⟨pd, hpd, ha2, ?_⟩
    cases Option.some.inj hf
    rfl

theorem lookupId_dbPhaseEntries (dbs : DbCache) :
    ∀ (dids : List String), dids.Nodup →
      ∀ did ∈ dids, (ensure_database dbs did).archived = false →
      lookupId (dbPhaseEntries dbs dids) did
        = some ⟨(ensure_database dbs did).last_edited_time, joinPath (dbDest dbs did)⟩ := by
  intro dids
  induction dids with
  | nil => intro _ did hmem; exact absurd hmem (List.not_mem_nil did)
  | cons qd rest ih =>
    intro hnd did hmem ha
    rw [List.nodup_cons] at hnd
    rcases List.mem_cons.1 hmem with rfl | hmem2
    · simp only [dbPhaseEntries, List.filterMap_cons, ha, Bool.false_eq_true, if_false]
      exact lookupId_cons_self _ _ _
    · have hne : qd ≠ did := fun h => hnd.1 (h ▸ hmem2)
      by_cases haq : (ensure_database dbs qd).archived = true
      · simp only [dbPhaseEntries, List.filterMap_cons, haq, if_true]
        exact ih hnd.2 did hmem2 ha
      · have haq2 : (ensure_database dbs qd).archived = false := by
          cases h : (ensure_database dbs qd).archived
          · rfl
          · exact absurd h haq
        simp only [dbPhaseEntries, List.filterMap_cons, haq2, Bool.false_eq_true, if_false]
        rw [lookupId_cons_ne qd did _ _ hne]
        exact ih hnd.2 did hmem2 ha

theorem mem_dbPhaseEntries (dbs : DbCache) (dids : List String)
    (kv : String × IndexEntry) (h : kv ∈ dbPhaseEntries dbs dids) :
    ∃ did ∈ dids, (ensure_database dbs did).archived = false ∧ kv.1 = did := by
  rcases List.mem_filterMap.1 h with ⟨did, hdid, hf⟩
  by_cases ha : (ensure_database dbs did).archived = true
  · rw [if_pos ha] at hf; exact absurd hf (by simp)
  · have ha2 : (ensure_database dbs did).archived = false := by
      cases h2 : (ensure_database dbs did).archived
      · rfl
      · exact absurd h2 ha
    rw [if_neg ha] at hf
    refine ⟨did, hdid, ha2, ?_⟩
    cases Option.some.inj hf
    rfl

theorem foldl_page_step_all_skip (pages : PageCache) (P : Index) :
    ∀ (dests : List (String × List String)) (st : RunState),
      (∀ pd ∈ dests, (ensure_page pages pd.1).archived = false →
        lookupId P pd.1 = some ⟨(ensure_page pages pd.1).last_edited_time, joinPath pd.2⟩
        ∧ pd.2 ∈ st.fs.files) →
      (dests.foldl (page_step pages true P) st).fs.files = st.fs.files
      ∧ (dests.foldl (page_step pages true P) st).deletions = st.deletions
      ∧ writtenOfResults (dests.foldl (page_step pages true P) st).results
          = writtenOfResults st.results := by
  intro dests
  induction dests with
  | nil => intro st h; exact ⟨rfl, rfl, rfl⟩
  | cons pd rest ih =>
    intro st h
    rw [List.foldl_cons]
    by_cases ha : (ensure_page pages pd.1).archived = true
    · rw [page_step_of_archived pages true P st pd ha]
      exact ih st (fun qd hq => h qd (List.mem_cons_of_mem pd hq))
    · have ha2 : (ensure_page pages pd.1).archived = false := by
        cases h2 : (ensure_page pages pd.1).archived
        · rfl
        · exact absurd h2 ha
      obtain ⟨hlk, hmem⟩ := h pd (List.mem_cons_self pd rest) ha2
      rw [page_step_skip_eq pages P st pd ha2 hlk hmem]
      have hih := ih { st with fs := mkdirParents st.fs (pd.2).dropLast,
                               results := st.results ++
                                 [(pd.1, ⟨(ensure_page pages pd.1).last_edited_time,
                                          joinPath pd.2⟩, 0)] }
        (fun qd hq harch => ⟨(h qd (List.mem_cons_of_mem pd hq) harch).1, by
          show qd.2 ∈ (mkdirParents st.fs (pd.2).dropLast).files
          rw [mkdirParents_files]
          exact (h qd (List.mem_cons_of_mem pd hq) harch).2⟩)
      refine ⟨?_, hih.2.1, ?_⟩
      · rw [hih.1]
        exact mkdirParents_files st.fs (pd.2).dropLast
      · rw [hih.2.2]
        simp [writtenOfResults_append, writtenOfResults]

theorem foldl_db_step_all_skip (dbs : DbCache) (P : Index) :
    ∀ (dids : List String) (st : RunState),
      (∀ did ∈ dids, (ensure_database dbs did).archived = false →
        lookupId P did = some ⟨(ensure_database dbs did).last_edited_time,
                               joinPath (dbDest dbs did)⟩
        ∧ dbDest dbs did ∈ st.fs.files) →
      (dids.foldl (db_step dbs true P) st).fs.files = st.fs.files
      ∧ (dids.foldl (db_step dbs true P) st).deletions = st.deletions
      ∧ writtenOfResults (dids.foldl (db_step dbs true P) st).results
          = writtenOfResults st.results := by
  intro dids
  induction dids with
  | nil => intro st h; exact ⟨rfl, rfl, rfl⟩
  | cons did rest ih =>
    intro st h
    rw [List.foldl_cons]
    by_cases ha : (ensure_database dbs did).archived = true
    · rw [db_step_of_archived dbs true P st did ha]
      exact ih st (fun qd hq => h qd (List.mem_cons_of_mem did hq))
    · have ha2 : (ensure_database dbs did).archived = false := by
        cases h2 : (ensure_database dbs did).archived
        · rfl
        · exact absurd h2 ha
      obtain ⟨hlk, hmem⟩ := h did (List.mem_cons_self did rest) ha2
      rw [db_step_skip_eq dbs P st did ha2 hlk hmem]
      have hih := ih { st with fs := mkdirParents st.fs [database_folder_name dbs did],
                               results := st.results ++
                                 [(did, ⟨(ensure_database dbs did).last_edited_time,
                                         joinPath (dbDest dbs did)⟩, 0)] }
        (fun qd hq harch => ⟨(h qd (List.mem_cons_of_mem did hq) harch).1, by
          show dbDest dbs qd ∈ (mkdirParents st.fs [database_folder_name dbs did]).files
          rw [mkdirParents_files]
          exact (h qd (List.mem_cons_of_mem did hq) harch).2⟩)
      refine ⟨?_, hih.2.1, ?_⟩
      · rw [hih.1]
        exact mkdirParents_files st.fs [database_folder_name dbs did]
      · rw [hih.2.2]
        simp [writtenOfResults_append, writtenOfResults]

theorem build_incremental_pagesIndex (pages : PageCache) (dbs : DbCache)
    (P0p P0d : Index) (fs0 : FS) :
    (build_incremental pages dbs P0p P0d fs0).pagesIndex
      = phaseEntries pages (pageDests pages dbs) := by
  show indexOfResults (write_pages pages dbs true P0p ⟨fs0, [], 0, []⟩).results = _
  unfold write_pages
  rw [foldl_page_step_index]
  rfl

theorem build_incremental_dbsIndex (pages : PageCache) (dbs : DbCache)
    (P0p P0d : Index) (fs0 : FS) :
    (build_incremental pages dbs P0p P0d fs0).dbsIndex
      = dbPhaseEntries dbs (sortStrings (dbs.map Prod.fst)) := by
  unfold build_incremental write_databases
  dsimp only
  rw [foldl_db_step_index]
  rfl

theorem mem_livePagePairs {pages : PageCache} {dbs : DbCache} {pd : String × List String} :
    pd ∈ livePagePairs pages dbs
      ↔ pd ∈ pageDests pages dbs ∧ (ensure_page pages pd.1).archived = false := by
  unfold livePagePairs
  rw [List.mem_filter]
  simp

theorem mem_liveDbIds {dbs : DbCache} {did : String} :
    did ∈ liveDbIds dbs
      ↔ did ∈ sortStrings (dbs.map Prod.fst)
        ∧ (ensure_database dbs did).archived = false := by
  unfold liveDbIds
  rw [List.mem_filter]
  simp

theorem build_incremental_live_files (pages : PageCache) (dbs : DbCache)
    (P0p P0d : Index) (fs0 : FS)
    (hnp : (pages.map Prod.fst).Nodup)
    (hnd : (dbs.map Prod.fst).Nodup)
    (H1 : ∀ kv ∈ P0p, ∀ pd ∈ livePagePairs pages dbs,
      splitPath (kv.2 : IndexEntry).path = pd.2 → kv.1 = pd.1)
    (H3 : ∀ kv ∈ P0d, ∀ did ∈ liveDbIds dbs,
      splitPath (kv.2 : IndexEntry).path = dbDest dbs did → kv.1 = did)
    (H4 : ∀ kv ∈ P0d, ∀ pd ∈ livePagePairs pages dbs,
      splitPath (kv.2 : IndexEntry).path ≠ pd.2) :
    (∀ pd ∈ livePagePairs pages dbs,
      pd.2 ∈ (build_incremental pages dbs P0p P0d fs0).fs.files)
    ∧ (∀ did ∈ liveDbIds dbs,
      dbDest dbs did ∈ (build_incremental pages dbs P0p P0d fs0).fs.files) := by
  have hndfst : ((pageDests pages dbs).map Prod.fst).Nodup := pageDests_nodup_fst pages dbs hnp
  have hnddids : (sortStrings (dbs.map Prod.fst)).Nodup := sortStrings_nodup hnd
  set dests := pageDests pages dbs with hdests
  set dids := sortStrings (dbs.map Prod.fst) with hdids
  set st0 : RunState := ⟨fs0, [], 0, []⟩ with hst0
  set stP := write_pages pages dbs true P0p st0 with hstP
  set pIdx := indexOfResults stP.results with hpIdx
  set afterP := cleanup_removed P0p pIdx (stP.fs, stP.deletions) with hafterP
  set stD := write_databases dbs true P0d ⟨afterP.1, [], afterP.2, stP.writtenPaths⟩ with hstD
  set dIdx := indexOfResults stD.results with hdIdx
  set afterD := cleanup_removed P0d dIdx (stD.fs, stD.deletions) with hafterD
  have hfs : (build_incremental pages dbs P0p P0d fs0).fs
      = insertFile (insertFile afterD.1 ["index.md"]) [".mirror_index.json"] := rfl
  have hpidx_eq : pIdx = phaseEntries pages dests := by
    rw [hpIdx, hstP]
    unfold write_pages
    rw [foldl_page_step_index]
    rfl
  have hdidx_eq : dIdx = dbPhaseEntries dbs dids := by
    rw [hdIdx, hstD]
    unfold write_databases
    rw [foldl_db_step_index]
    rfl
  -- page-phase safety against P0p, for any protected live page destination
  have hsafeP : ∀ pd ∈ livePagePairs pages dbs,
      ∀ qd ∈ dests, (ensure_page pages qd.1).archived = false →
      ∀ e, lookupId P0p qd.1 = some e → e.path ≠ joinPath qd.2 →
      splitPath e.path ≠ pd.2 := by
    intro pd hpd qd hqd hqarch e hlk hne heq
    have hkv : (qd.1, e) ∈ P0p := lookupId_some_mem_pair hlk
    have hid : qd.1 = pd.1 := H1 (qd.1, e) hkv pd hpd heq
    have hqdpd : qd = pd :=
      nodup_fst_pair_eq dests hndfst qd hqd pd (mem_livePagePairs.1 hpd).1 hid
    subst hqdpd
    exact hne (splitPath_injOn_join heq)
  -- after the page write phase every live page destination exists
  have hA : ∀ pd ∈ livePagePairs pages dbs, pd.2 ∈ stP.fs.files := by
    intro pd hpd
    obtain ⟨hpdmem, hpdarch⟩ := mem_livePagePairs.1 hpd
    exact foldl_page_step_establishes pages P0p dests st0 pd hpdmem hpdarch
      (hsafeP pd hpd)
  -- page reconciliation does not touch live page destinations
  have hB : ∀ pd ∈ livePagePairs pages dbs, pd.2 ∈ afterP.1.files := by
    intro pd hpd
    obtain ⟨hpdmem, hpdarch⟩ := mem_livePagePairs.1 hpd
    refine cleanup_removed_preserves pIdx P0p (stP.fs, stP.deletions) pd.2 (hA pd hpd) ?_
    intro kv hkv hnone heq
    have hid : kv.1 = pd.1 := H1 kv hkv pd hpd heq
    rw [hid, hpidx_eq, lookupId_phaseEntries pages dests hndfst pd hpdmem hpdarch] at hnone
    exact absurd hnone (by simp)
  -- database-phase safety against P0d, for live page destinations
  have hsafeD : ∀ pd ∈ livePagePairs pages dbs,
      ∀ qd ∈ dids, (ensure_database dbs qd).archived = false →
      ∀ e, lookupId P0d qd = some e → e.path ≠ joinPath (dbDest dbs qd) →
      splitPath e.path ≠ pd.2 := by
    intro pd hpd qd hqd hqarch e hlk hne
    exact H4 (qd, e) (lookupId_some_mem_pair hlk) pd hpd
  -- the database write phase keeps live page destinations and writes
  -- every live database destination
  have hC : ∀ pd ∈ livePagePairs pages dbs, pd.2 ∈ stD.fs.files := by
    intro pd hpd
    exact foldl_db_step_preserves dbs P0d dids _ pd.2 (hB pd hpd) (hsafeD pd hpd)
  have hCd : ∀ did ∈ liveDbIds dbs, dbDest dbs did ∈ stD.fs.files := by
    intro did hdid
    obtain ⟨hdmem, hdarch⟩ := mem_liveDbIds.1 hdid
    refine foldl_db_step_establishes dbs P0d dids _ did hdmem hdarch ?_
    intro qd hqd hqarch e hlk hne heq
    have hkv : (qd, e) ∈ P0d := lookupId_some_mem_pair hlk
    have hid : qd = did := H3 (qd, e) hkv did hdid heq
    subst hid
    exact hne (splitPath_injOn_join heq)
  -- database reconciliation touches neither kind of live destination
  have hD : ∀ pd ∈ livePagePairs pages dbs, pd.2 ∈ afterD.1.files := by
    intro pd hpd
    refine cleanup_removed_preserves dIdx P0d (stD.fs, stD.deletions) pd.2 (hC pd hpd) ?_
    intro kv hkv hnone heq
    exact H4 kv hkv pd hpd heq
  have hDd : ∀ did ∈ liveDbIds dbs, dbDest dbs did ∈ afterD.1.files := by
    intro did hdid
    obtain ⟨hdmem, hdarch⟩ := mem_liveDbIds.1 hdid
    refine cleanup_removed_preserves dIdx P0d (stD.fs, stD.deletions) (dbDest dbs did)
      (hCd did hdid) ?_
    intro kv hkv hnone heq
    have hid : kv.1 = did := H3 kv hkv did hdid heq
    rw [hid, hdidx_eq, lookupId_dbPhaseEntries dbs dids hnddids did hdmem hdarch] at hnone
    exact absurd hnone (by simp)
  constructor
  · intro pd hpd
    rw [hfs]
    exact mem_insertFile.2 (Or.inr (mem_insertFile.2 (Or.inr (hD pd hpd))))
  · intro did hdid
    rw [hfs]
    exact mem_insertFile.2 (Or.inr (mem_insertFile.2 (Or.inr (hDd did hdid))))

/-- C3 amended: running incremental mode twice in a row with no upstream
changes (same caches, same fingerprints) performs zero object writes and
zero deletions on the second run, provided that no recorded path of the
first run's previous index coincides with the destination of a different
live object (without that proviso a stale entry's reconciliation or move
handling can delete a live object's freshly written file, forcing a
rewrite on the second run — see the counterexample). -/
theorem incremental_idempotent (pages : PageCache) (dbs : DbCache)
    (P0p P0d : Index) (fs0 : FS)
    (hnp : (pages.map Prod.fst).Nodup)
    (hnd : (dbs.map Prod.fst).Nodup)
    (H1 : ∀ kv ∈ P0p, ∀ pd ∈ livePagePairs pages dbs,
      splitPath (kv.2 : IndexEntry).path = pd.2 → kv.1 = pd.1)
    (H3 : ∀ kv ∈ P0d, ∀ did ∈ liveDbIds dbs,
      splitPath (kv.2 : IndexEntry).path = dbDest dbs did → kv.1 = did)
    (H4 : ∀ kv ∈ P0d, ∀ pd ∈ livePagePairs pages dbs,
      splitPath (kv.2 : IndexEntry).path ≠ pd.2) :
    (build_incremental pages dbs
        (build_incremental pages dbs P0p P0d fs0).pagesIndex
        (build_incremental pages dbs P0p P0d fs0).dbsIndex
        (build_incremental pages dbs P0p P0d fs0).fs).pagesWritten = 0
    ∧ (build_incremental pages dbs
        (build_incremental pages dbs P0p P0d fs0).pagesIndex
        (build_incremental pages dbs P0p P0d fs0).dbsIndex
        (build_incremental pages dbs P0p P0d fs0).fs).dbsWritten = 0
    ∧ (build_incremental pages dbs
        (build_incremental pages dbs P0p P0d fs0).pagesIndex
        (build_incremental pages dbs P0p P0d fs0).dbsIndex
        (build_incremental pages dbs P0p P0d fs0).fs).deletions = 0 := by
  have hndfst : ((pageDests pages dbs).map Prod.fst).Nodup := pageDests_nodup_fst pages dbs hnp
  have hnddids : (sortStrings (dbs.map Prod.fst)).Nodup := sortStrings_nodup hnd
  set A := build_incremental pages dbs P0p P0d fs0 with hAdef
  have hApIdx : A.pagesIndex = phaseEntries pages (pageDests pages dbs) :=
    build_incremental_pagesIndex pages dbs P0p P0d fs0
  have hAdIdx : A.dbsIndex = dbPhaseEntries dbs (sortStrings (dbs.map Prod.fst)) :=
    build_incremental_dbsIndex pages dbs P0p P0d fs0
  have hlive := build_incremental_live_files pages dbs P0p P0d fs0 hnp hnd H1 H3 H4
  set st0 : RunState := ⟨A.fs, [], 0, []⟩ with hst0
  set stP := write_pages pages dbs true A.pagesIndex st0 with hstP
  set pIdx := indexOfResults stP.results with hpIdx
  set afterP := cleanup_removed A.pagesIndex pIdx (stP.fs, stP.deletions) with hafterP
  set stD := write_databases dbs true A.dbsIndex
    ⟨afterP.1, [], afterP.2, stP.writtenPaths⟩ with hstD
  set dIdx := indexOfResults stD.results with hdIdx
  set afterD := cleanup_removed A.dbsIndex dIdx (stD.fs, stD.deletions) with hafterD
  have hBpw : (build_incremental pages dbs A.pagesIndex A.dbsIndex A.fs).pagesWritten
      = writtenOfResults stP.results := rfl
  have hBdw : (build_incremental pages dbs A.pagesIndex A.dbsIndex A.fs).dbsWritten
      = writtenOfResults stD.results := rfl
  have hBdel : (build_incremental pages dbs A.pagesIndex A.dbsIndex A.fs).deletions
      = afterD.2 := rfl
  -- page phase of the second run: every object is skipped
  have hskipP := foldl_page_step_all_skip pages A.pagesIndex (pageDests pages dbs) st0
    (by
      intro pd hmem harch
      constructor
      · rw [hApIdx]
        exact lookupId_phaseEntries pages (pageDests pages dbs) hndfst pd hmem harch
      · exact hlive.1 pd (mem_livePagePairs.2 ⟨hmem, harch⟩))
  have hstPfold : stP = (pageDests pages dbs).foldl
      (page_step pages true A.pagesIndex) st0 := rfl
  have hfsP : stP.fs.files = A.fs.files := by rw [hstPfold]; exact hskipP.1
  have hdelP : stP.deletions = 0 := by rw [hstPfold]; exact hskipP.2.1
  have hwP : writtenOfResults stP.results = 0 := by rw [hstPfold]; exact hskipP.2.2
  have hpIdx_eq : pIdx = phaseEntries pages (pageDests pages dbs) := by
    rw [hpIdx, hstPfold, foldl_page_step_index]
    rfl
  -- page reconciliation of the second run is a no-op
  have hnoopP : afterP = (stP.fs, stP.deletions) := by
    rw [hafterP]
    refine cleanup_removed_noop pIdx A.pagesIndex (stP.fs, stP.deletions) ?_
    intro kv hkv
    rw [hApIdx] at hkv
    obtain ⟨pd, hpd, harch, hkid⟩ := mem_phaseEntries pages (pageDests pages dbs) kv hkv
    rw [hpIdx_eq, hkid,
      lookupId_phaseEntries pages (pageDests pages dbs) hndfst pd hpd harch]
    simp
  -- database phase of the second run: every object is skipped
  have hskipD := foldl_db_step_all_skip dbs A.dbsIndex (sortStrings (dbs.map Prod.fst))
    ⟨afterP.1, [], afterP.2, stP.writtenPaths⟩
    (by
      intro did hmem harch
      constructor
      · rw [hAdIdx]
        exact lookupId_dbPhaseEntries dbs (sortStrings (dbs.map Prod.fst)) hnddids did hmem harch
      · show dbDest dbs did ∈ afterP.1.files
        rw [hnoopP]
        show dbDest dbs did ∈ stP.fs.files
        rw [hfsP]
        exact hlive.2 did (mem_liveDbIds.2 ⟨hmem, harch⟩))
  have hstDfold : stD = (sortStrings (dbs.map Prod.fst)).foldl
      (db_step dbs true A.dbsIndex) ⟨afterP.1, [], afterP.2, stP.writtenPaths⟩ := rfl
  have hdelD : stD.deletions = afterP.2 := by rw [hstDfold]; exact hskipD.2.1
  have hwD : writtenOfResults stD.results = 0 := by rw [hstDfold]; exact hskipD.2.2
  have hdIdx_eq : dIdx = dbPhaseEntries dbs (sortStrings (dbs.map Prod.fst)) := by
    rw [hdIdx, hstDfold, foldl_db_step_index]
    rfl
  -- database reconciliation of the second run is a no-op
  have hnoopD : afterD = (stD.fs, stD.deletions) := by
    rw [hafterD]
    refine cleanup_removed_noop dIdx A.dbsIndex (stD.fs, stD.deletions) ?_
    intro kv hkv
    rw [hAdIdx] at hkv
    obtain ⟨did, hdid, harch, hkid⟩ := mem_dbPhaseEntries dbs (sortStrings (dbs.map Prod.fst)) kv hkv
    rw [hdIdx_eq, hkid,
      lookupId_dbPhaseEntries dbs (sortStrings (dbs.map Prod.fst)) hnddids did hdid harch]
    simp
  refine ⟨by rw [hBpw, hwP], by rw [hBdw, hwD], ?_⟩
  rw [hBdel, hnoopD]
  show stD.deletions = 0
  rw [hdelD, hnoopP]
  show stP.deletions = 0
  exact hdelP

/-- Closed witness for `incremental_idempotent`: the concrete one-page
cache run twice from an empty previous index performs zero writes and
zero deletions on the second run. -/
theorem incremental_idempotent_witness :
    (build_incremental aliasPages []
        (build_incremental aliasPages [] [] [] emptyFS).pagesIndex
        (build_incremental aliasPages [] [] [] emptyFS).dbsIndex
        (build_incremental aliasPages [] [] [] emptyFS).fs).pagesWritten = 0
    ∧ (build_incremental aliasPages []
        (build_incremental aliasPages [] [] [] emptyFS).pagesIndex
        (build_incremental aliasPages [] [] [] emptyFS).dbsIndex
        (build_incremental aliasPages [] [] [] emptyFS).fs).dbsWritten = 0
    ∧ (build_incremental aliasPages []
        (build_incremental aliasPages [] [] [] emptyFS).pagesIndex
        (build_incremental aliasPages [] [] [] emptyFS).dbsIndex
        (build_incremental aliasPages [] [] [] emptyFS).fs).deletions = 0 :=
  incremental_idempotent aliasPages [] [] [] emptyFS (by decide) (by decide)
    (by intro kv hkv; exact absurd hkv (List.not_mem_nil kv))
    (by intro kv hkv; exact absurd hkv (List.not_mem_nil kv))
    (by intro kv hkv; exact absurd hkv (List.not_mem_nil kv))

/-- C9 counterexample: `safe_name` collapses whitespace to a single
space and never substitutes underscores, so the page file of the
concrete scenario is `Buy milk_p1.md` — the full rebuild does not
produce the claimed `DB_Tasks_d1/Buy_milk_p1.md`. -/
theorem scenario_file_name_counterexample :
    ["DB_Tasks_d1", "Buy_milk_p1.md"] ∉ (build_full scenarioPages scenarioDbs).fs.files
    ∧ page_file_name buyMilkPage = "Buy milk_p1.md" := by
  decide

/-- C9 amended: with the page file named `Buy milk_p1.md` (space
preserved), the concrete scenario behaves as claimed: a full rebuild
produces `DB_Tasks_d1/__database.md` — whose entry list names
"Buy milk" — and `DB_Tasks_d1/Buy milk_p1.md`; a second incremental run
with the fingerprint unchanged performs zero writes and zero deletions;
after the fingerprint changes to `t2`, an incremental run writes only
the page file and records fingerprint `t2` for it, with the database
entry untouched. -/
theorem scenario_concrete :
    (["DB_Tasks_d1", "__database.md"] ∈ (build_full scenarioPages scenarioDbs).fs.files
      ∧ ["DB_Tasks_d1", "Buy milk_p1.md"] ∈ (build_full scenarioPages scenarioDbs).fs.files)
    ∧ "- [Buy milk](Buy milk_p1.md)"
        ∈ database_index_lines scenarioPages scenarioDbs tasksDb "d1" [buyMilkPage] "now"
    ∧ ((build_incremental scenarioPages scenarioDbs
          (build_full scenarioPages scenarioDbs).pagesIndex
          (build_full scenarioPages scenarioDbs).dbsIndex
          (build_full scenarioPages scenarioDbs).fs).pagesWritten = 0
      ∧ (build_incremental scenarioPages scenarioDbs
          (build_full scenarioPages scenarioDbs).pagesIndex
          (build_full scenarioPages scenarioDbs).dbsIndex
          (build_full scenarioPages scenarioDbs).fs).dbsWritten = 0
      ∧ (build_incremental scenarioPages scenarioDbs
          (build_full scenarioPages scenarioDbs).pagesIndex
          (build_full scenarioPages scenarioDbs).dbsIndex
          (build_full scenarioPages scenarioDbs).fs).deletions = 0)
    ∧ ((build_incremental scenarioPagesT2 scenarioDbs
          (build_full scenarioPages scenarioDbs).pagesIndex
          (build_full scenarioPages scenarioDbs).dbsIndex
          (build_full scenarioPages scenarioDbs).fs).writtenPaths
            = [["DB_Tasks_d1", "Buy milk_p1.md"]]
      ∧ lookupId (build_incremental scenarioPagesT2 scenarioDbs
          (build_full scenarioPages scenarioDbs).pagesIndex
          (build_full scenarioPages scenarioDbs).dbsIndex
          (build_full scenarioPages scenarioDbs).fs).pagesIndex "p1"
            = some ⟨"t2", "DB_Tasks_d1/Buy milk_p1.md"⟩
      ∧ lookupId (build_incremental scenarioPagesT2 scenarioDbs
          (build_full scenarioPages scenarioDbs).pagesIndex
          (build_full scenarioPages scenarioDbs).dbsIndex
          (build_full scenarioPages scenarioDbs).fs).dbsIndex "d1"
            = some ⟨"t0", "DB_Tasks_d1/__database.md"⟩) := by
  decide

theorem writes_trace_final (fd : Option (List (List String))) :
    ∀ (ws : List (List String)) (c : List (List String)) (x : DirState),
      x ∈ List.scanl applyStep ⟨fd, some c⟩ (ws.map .writeTmp) →
      x.finalDir = fd := by
  intro ws
  induction ws with
  | nil =>
    intro c x hx
    simp only [List.map_nil, List.scanl_nil, List.mem_singleton] at hx
    rw [hx]
  | cons w rest ih =>
    intro c x hx
    simp only [List.map_cons, List.scanl_cons, List.singleton_append, List.mem_cons] at hx
    rcases hx with rfl | hx2
    · rfl
    · exact ih (insertContent c w) x (by simpa [applyStep] using hx2)

theorem publish_trace_final (fd : Option (List (List String))) :
    ∀ (ws : List (List String)) (c : List (List String)) (x : DirState),
      x ∈ List.scanl applyStep ⟨fd, some c⟩
        (ws.map .writeTmp ++ [.removeFinal, .renameTmpToFinal]) →
      x.finalDir = fd ∨ x.finalDir = none ∨ x.finalDir = some (ws.foldl insertContent c) := by
  intro ws
  induction ws with
  | nil =>
    intro c x hx
    simp only [List.map_nil, List.nil_append, List.scanl_cons, List.scanl_nil,
      List.singleton_append, List.mem_cons, List.mem_singleton, applyStep] at hx
    rcases hx with rfl | rfl | rfl | hx
    · exact Or.inl rfl
    · exact Or.inr (Or.inl rfl)
    · exact Or.inr (Or.inr rfl)
    · exact absurd hx (List.not_mem_nil x)
  | cons w rest ih =>
    intro c x hx
    simp only [List.map_cons, List.cons_append, List.scanl_cons, List.singleton_append,
      List.mem_cons] at hx
    rcases hx with rfl | hx2
    · exact Or.inl rfl
    · have := ih (insertContent c w) x (by simpa [applyStep] using hx2)
      simpa [List.foldl_cons] using this

/-- C1: along the full-rebuild trace, (1) every state reached before the
publish step leaves the previously published final directory exactly as
it was — an interruption anywhere in the write phase leaves the old
mirror untouched — and (2) over the whole run, the final directory only
ever holds the old complete content, nothing (during the instant between
removal and rename), or the new complete content with every write
applied: an observer never sees a partially populated mirror replace a
complete one. -/
theorem full_rebuild_atomicity :
    (∀ (s0 : DirState) (ws : List (List String)),
      ∀ x ∈ statesAlong s0 ([BuildStep.clearTmp, BuildStep.mkTmp] ++ ws.map BuildStep.writeTmp),
        x.finalDir = s0.finalDir)
    ∧ (∀ (s0 : DirState) (ws : List (List String)),
      ∀ x ∈ statesAlong s0 (full_build_steps ws),
        x.finalDir = s0.finalDir ∨ x.finalDir = none
          ∨ x.finalDir = some (writtenContent ws)) := by
  constructor
  · intro s0 ws x hx
    simp only [statesAlong, List.cons_append, List.nil_append, List.scanl_cons,
      List.singleton_append, List.mem_cons] at hx
    rcases hx with rfl | hx
    · rfl
    rcases hx with rfl | hx
    · rfl
    exact writes_trace_final s0.finalDir ws [] x (by simpa [applyStep] using hx)
  · intro s0 ws x hx
    simp only [statesAlong, full_build_steps, List.cons_append, List.nil_append,
      List.scanl_cons, List.singleton_append, List.mem_cons] at hx
    rcases hx with rfl | hx
    · exact Or.inl rfl
    rcases hx with rfl | hx
    · exact Or.inl rfl
    exact publish_trace_final s0.finalDir ws [] x (by simpa [applyStep] using hx)

/-- Closed witness for `full_rebuild_atomicity`: in a concrete
full-rebuild trace over one write, the published state holds exactly
the complete new content. -/
theorem full_rebuild_atomicity_witness :
    (⟨some [["a.md"]], none⟩ : DirState).finalDir
        = (⟨some [["old.md"]], none⟩ : DirState).finalDir
    ∨ (⟨some [["a.md"]], none⟩ : DirState).finalDir = none
    ∨ (⟨some [["a.md"]], none⟩ : DirState).finalDir = some (writtenContent [["a.md"]]) :=
  full_rebuild_atomicity.2 ⟨some [["old.md"]], none⟩ [["a.md"]]
    ⟨some [["a.md"]], none⟩ (by decide)

theorem retryable_ne_400 {s : Nat} (h : retryable s = true) : s ≠ 400 := by
  intro heq
  subst heq
  simp [retryable] at h

theorem requestLoop_all_retryable_no_hint (f : Nat → HttpResp)
    (hr : ∀ k, retryable (f k).status = true) (hh : ∀ k, (f k).retryAfter = none) :
    ∀ (remaining idx : Nat) (ver : String) (b : ℚ), 1 ≤ b → b ≤ 30 →
      requestLoop f ver remaining idx b
        = ((List.range remaining).map (fun k => min (2 ^ k * b) 30),
           ReqOutcome.retriesExhausted) := by
  intro remaining
  induction remaining with
  | zero => intro idx ver b hb1 hb30; simp [requestLoop]
  | succ n ih =>
    intro idx ver b hb1 hb30
    have hne400 : ¬((f idx).status = 400 ∧ (f idx).versionComplaint = true
        ∧ ver ≠ "2022-06-28") := fun h => retryable_ne_400 (hr idx) h.1
    have hb2 : (1 : ℚ) ≤ min (2 * b) 30 := by
      rcases le_total (2 * b) 30 with h | h
      · rw [min_eq_left h]; linarith
      · rw [min_eq_right h]; norm_num
    have hb2' : min (2 * b) 30 ≤ 30 := min_le_right _ _
    have hpt : ∀ k : Nat, min (2 ^ (k + 1) * b) 30 = min (2 ^ k * min (2 * b) 30) 30 := by
      intro k
      have hpow : (1 : ℚ) ≤ 2 ^ k := one_le_pow₀ (by norm_num)
      rcases le_total (2 * b) 30 with h | h
      · rw [min_eq_left h]
        ring_nf
      · rw [min_eq_right h]
        have h1 : (30 : ℚ) ≤ 2 ^ k * 30 := by nlinarith
        have h2 : (30 : ℚ) ≤ 2 ^ (k + 1) * b := by
          have hexp : (2 : ℚ) ^ (k + 1) * b = 2 ^ k * (2 * b) := by ring
          rw [hexp]
          nlinarith
        rw [min_eq_right h1, min_eq_right h2]
    simp only [requestLoop, if_neg hne400, hr idx, if_true, hh idx]
    rw [ih (idx + 1) ver (min (2 * b) 30) hb2 hb2']
    have hmin : min ((2 : ℚ) ^ (0 : Nat) * b) 30 = b := by
      rw [pow_zero, one_mul, min_eq_left hb30]
    rw [List.range_succ_eq_map, List.map_cons, List.map_map, hmin]
    refine congrArg (fun l => ((b :: l : List ℚ), ReqOutcome.retriesExhausted)) ?_
    refine List.map_congr_left ?_
    intro k hk
    simp only [Function.comp_apply]
    exact (hpt k).symm

theorem requestLoop_retryable_exhausts (f : Nat → HttpResp)
    (hr : ∀ k, retryable (f k).status = true) :
    ∀ (remaining idx : Nat) (ver : String) (b : ℚ),
      (requestLoop f ver remaining idx b).2 = ReqOutcome.retriesExhausted
      ∧ (requestLoop f ver remaining idx b).1.length = remaining := by
  intro remaining
  induction remaining with
  | zero => intro idx ver b; exact ⟨rfl, rfl⟩
  | succ n ih =>
    intro idx ver b
    have hne400 : ¬((f idx).status = 400 ∧ (f idx).versionComplaint = true
        ∧ ver ≠ "2022-06-28") := fun h => retryable_ne_400 (hr idx) h.1
    simp only [requestLoop, if_neg hne400, hr idx, if_true]
    cases hra : (f idx).retryAfter with
    | none =>
      dsimp only
      refine ⟨(ih (idx + 1) ver (min (2 * b) 30)).1, ?_⟩
      simp [(ih (idx + 1) ver (min (2 * b) 30)).2]
    | some ra =>
      dsimp only
      refine ⟨(ih (idx + 1) ver (min (2 * max b ra) 30)).1, ?_⟩
      simp [(ih (idx + 1) ver (min (2 * max b ra) 30)).2]

/-- C6: the retry policy of `_request`.  (1) Backoff starts at 1 second
and, with only rate-limit/transient responses and no retry-after hints,
the successive sleeps are exactly `min(2^k, 30)` — doubling, capped at
30 — and after the 8-attempt budget the call surfaces a terminal
`NotionError`.  (2) On every retryable response the loop sleeps some
duration `s` that is at least the current backoff and at least the
server's retry-after hint when present (and exactly the current backoff
without a hint), then continues with backoff `min(2s, 30)`.  (3) Any
all-retryable response sequence exhausts exactly 8 attempts and ends in
the terminal error. -/
theorem retry_backoff_policy :
    (∀ (f : Nat → HttpResp) (ver : String),
      (∀ k, retryable (f k).status = true) → (∀ k, (f k).retryAfter = none) →
      do_request f ver = ([1, 2, 4, 8, 16, 30, 30, 30], ReqOutcome.retriesExhausted))
    ∧ (∀ (f : Nat → HttpResp) (ver : String) (remaining idx : Nat) (b : ℚ),
      retryable (f idx).status = true →
      ∃ s : ℚ, requestLoop f ver (remaining + 1) idx b
          = (s :: (requestLoop f ver remaining (idx + 1) (min (2 * s) 30)).1,
             (requestLoop f ver remaining (idx + 1) (min (2 * s) 30)).2)
        ∧ b ≤ s
        ∧ (∀ ra, (f idx).retryAfter = some ra → ra ≤ s)
        ∧ ((f idx).retryAfter = none → s = b))
    ∧ (∀ (f : Nat → HttpResp) (ver : String),
      (∀ k, retryable (f k).status = true) →
      (do_request f ver).2 = ReqOutcome.retriesExhausted
      ∧ (do_request f ver).1.length = 8) := by
  refine ⟨?_, ?_, ?_⟩
  · intro f ver hr hh
    unfold do_request
    rw [requestLoop_all_retryable_no_hint f hr hh 8 0 ver 1 (by norm_num) (by norm_num)]
    norm_num [List.range_succ, min_def]
  · intro f ver remaining idx b hr
    have hne400 : ¬((f idx).status = 400 ∧ (f idx).versionComplaint = true
        ∧ ver ≠ "2022-06-28") := fun h => retryable_ne_400 hr h.1
    cases hra : (f idx).retryAfter with
    | none =>
      refine ⟨b, ?_, le_refl b, ?_, fun _ => rfl⟩
      · simp only [requestLoop, if_neg hne400, hr, if_true, hra]
      · intro ra hcontra
        exact absurd hcontra (by simp)
    | some ra =>
      refine ⟨max b ra, ?_, le_max_left b ra, ?_, ?_⟩
      · simp only [requestLoop, if_neg hne400, hr, if_true, hra]
      · intro ra2 h2
        cases Option.some.inj h2
        exact le_max_right b ra
      · intro hcontra
        exact absurd hcontra (by simp)
  · intro f ver hr
    exact requestLoop_retryable_exhausts f hr 8 0 ver 1

/-- Closed witness for `retry_backoff_policy`: a permanently
rate-limited endpoint with no retry-after hints sleeps
1, 2, 4, 8, 16, 30, 30, 30 seconds and then gives up. -/
theorem retry_backoff_policy_witness :
    do_request (fun _ => ⟨429, none, false⟩) "2022-06-28"
      = ([1, 2, 4, 8, 16, 30, 30, 30], ReqOutcome.retriesExhausted) :=
  retry_backoff_policy.1 (fun _ => ⟨429, none, false⟩) "2022-06-28"
    (fun _ => rfl) (fun _ => rfl)

theorem runAcquires_subset (burst : Nat) :
    ∀ (attempts ts : List ℚ) (s : ℚ),
      s ∈ (runAcquires burst ts attempts).2 → s ∈ attempts := by
  intro attempts
  induction attempts with
  | nil => intro ts s hs; exact absurd hs (List.not_mem_nil s)
  | cons now rest ih =>
    intro ts s hs
    simp only [runAcquires] at hs
    rcases List.mem_append.1 hs with h | h
    · by_cases hb : (acquireStep burst ts now).2 = true
      · rw [if_pos hb] at h
        rw [List.mem_singleton.1 h]
        exact List.mem_cons_self now rest
      · rw [if_neg hb] at h
        exact absurd h (List.not_mem_nil s)
    · exact List.mem_cons_of_mem now (ih _ s h)

theorem countP_pruneTs_of_witness (ts : List ℚ) (now a s : ℚ)
    (_hs1 : a < s) (hs2 : s ≤ a + 1) (hns : now ≤ s) :
    (pruneTs ts now).countP (winP a) = ts.countP (winP a) := by
  unfold pruneTs
  rw [List.countP_filter]
  refine List.countP_congr ?_
  intro t ht
  constructor
  · intro h
    exact (Bool.and_eq_true _ _ ▸ h).1
  · intro h
    have hwin : a < t ∧ t ≤ a + 1 := by simpa [winP] using h
    have hkeep : now - t < 1 := by linarith [hwin.1]
    simp [h, hkeep]

theorem runAcquires_window_aux (burst : Nat) :
    ∀ (attempts : List ℚ), List.Sorted (· ≤ ·) attempts →
      ∀ (ts : List ℚ), ts.length ≤ burst → ∀ a : ℚ,
      (runAcquires burst ts attempts).2.countP (winP a) + ts.countP (winP a) ≤ burst := by
  intro attempts
  induction attempts with
  | nil =>
    intro _ ts hlen a
    simp only [runAcquires, List.countP_nil, Nat.zero_add]
    exact le_trans (List.countP_le_length _) hlen
  | cons now rest ih =>
    intro hsort ts hlen a
    have hsortrest : List.Sorted (· ≤ ·) rest := (List.sorted_cons.1 hsort).2
    have hfut : ∀ x ∈ rest, now ≤ x := (List.sorted_cons.1 hsort).1
    have hplen : (pruneTs ts now).length ≤ ts.length := List.length_filter_le _ _
    have htsb : ts.countP (winP a) ≤ burst :=
      le_trans (List.countP_le_length _) hlen
    simp only [runAcquires]
    by_cases hfit : (pruneTs ts now).length < burst
    · have hstep1 : (acquireStep burst ts now).1 = pruneTs ts now ++ [now] := by
        simp [acquireStep, hfit]
      have hstep2 : (acquireStep burst ts now).2 = true := by
        simp [acquireStep, hfit]
      rw [hstep1, hstep2, if_pos rfl, List.countP_append]
      have hlen2 : (pruneTs ts now ++ [now]).length ≤ burst := by
        rw [List.length_append, List.length_singleton]
        omega
      have hih := ih hsortrest (pruneTs ts now ++ [now]) hlen2 a
      rw [List.countP_append] at hih
      by_cases hwin : winP a now = true
      · have hw : a < now ∧ now ≤ a + 1 := by simpa [winP] using hwin
        have hpr := countP_pruneTs_of_witness ts now a now hw.1 hw.2 (le_refl now)
        have h1 : List.countP (winP a) [now] = 1 := by simp [hwin]
        rw [h1] at hih ⊢
        omega
      · have hwin2 : winP a now = false := by
          cases h : winP a now
          · rfl
          · exact absurd h hwin
        have h0 : List.countP (winP a) [now] = 0 := by simp [hwin2]
        rw [h0] at hih ⊢
        by_cases hzero :
            (runAcquires burst (pruneTs ts now ++ [now]) rest).2.countP (winP a) = 0
        · rw [hzero]
          omega
        · obtain ⟨s, hsmem, hswin⟩ :
              ∃ s ∈ (runAcquires burst (pruneTs ts now ++ [now]) rest).2,
                winP a s = true := by
            rcases List.countP_pos_iff.1 (Nat.pos_of_ne_zero hzero) with ⟨s, hs1, hs2⟩
            exact ⟨s, hs1, hs2⟩
          have hsw : a < s ∧ s ≤ a + 1 := by simpa [winP] using hswin
          have hnows : now ≤ s := hfut s (runAcquires_subset burst rest _ s hsmem)
          have hpr := countP_pruneTs_of_witness ts now a s hsw.1 hsw.2 hnows
          omega
    · have hstep1 : (acquireStep burst ts now).1 = pruneTs ts now := by
        simp [acquireStep, hfit]
      have hstep2 : (acquireStep burst ts now).2 = false := by
        simp [acquireStep, hfit]
      rw [hstep1, hstep2, if_neg (by simp), List.nil_append]
      have hih := ih hsortrest (pruneTs ts now) (le_trans hplen hlen) a
      by_cases hzero :
          (runAcquires burst (pruneTs ts now) rest).2.countP (winP a) = 0
      · rw [hzero]
        omega
      · obtain ⟨s, hsmem, hswin⟩ :
            ∃ s ∈ (runAcquires burst (pruneTs ts now) rest).2, winP a s = true := by
          rcases List.countP_pos_iff.1 (Nat.pos_of_ne_zero hzero) with ⟨s, hs1, hs2⟩
          exact ⟨s, hs1, hs2⟩
        have hsw : a < s ∧ s ≤ a + 1 := by simpa [winP] using hswin
        have hnows : now ≤ s := hfut s (runAcquires_subset burst rest _ s hsmem)
        have hpr := countP_pruneTs_of_witness ts now a s hsw.1 hsw.2 hnows
        omega

/-- C7: (1) safety — starting from an empty limiter, along any monotone
sequence of attempt instants at most `burst` acquisitions complete
within any rolling one-second window `(a, a + 1]` (the client constructs
the limiter with `burst = rate_per_sec = R`); (2) liveness — when an
attempt fails, retrying after the computed sleep
`max(1 - (now - oldest), 0.01)` with no competing acquisition in between
succeeds, because the oldest timestamp has left the window: tokens free
up and `acquire` returns. -/
theorem rate_limiter_window :
    (∀ (burst : Nat) (attempts : List ℚ), List.Sorted (· ≤ ·) attempts →
      ∀ a : ℚ, (runAcquires burst [] attempts).2.countP (winP a) ≤ burst)
    ∧ (∀ (burst : Nat) (ts : List ℚ) (now t0 : ℚ) (rest : List ℚ),
      ts.length ≤ burst →
      (acquireStep burst ts now).2 = false →
      pruneTs ts now = t0 :: rest →
      (acquireStep burst (pruneTs ts now)
        (now + max (1 - (now - t0)) (1 / 100))).2 = true) := by
  constructor
  · intro burst attempts hsort a
    have h := runAcquires_window_aux burst attempts hsort [] (Nat.zero_le burst) a
    simpa using h
  · intro burst ts now t0 rest hlen hfail hhead
    have hge : burst ≤ (pruneTs ts now).length := by
      by_contra h
      push_neg at h
      simp [acquireStep, h] at hfail
    have hplen : (pruneTs ts now).length ≤ ts.length := List.length_filter_le _ _
    have heq : (pruneTs ts now).length = burst := le_antisymm (le_trans hplen hlen) hge
    have hrb : rest.length + 1 = burst := by
      rw [hhead] at heq
      simpa using heq
    have hdrop : ¬(now + max (1 - (now - t0)) (1 / 100) - t0 < 1) := by
      rcases le_total ((1 : ℚ) / 100) (1 - (now - t0)) with h | h
      · rw [max_eq_left h]
        intro hc
        linarith
      · rw [max_eq_right h]
        intro hc
        linarith
    rw [hhead]
    have hlen2 : (pruneTs (t0 :: rest) (now + max (1 - (now - t0)) (1 / 100))).length
        < burst := by
      unfold pruneTs
      rw [List.filter_cons_of_neg (by simpa using hdrop)]
      have := List.length_filter_le
        (fun t => decide (now + max (1 - (now - t0)) (1 / 100) - t < 1)) rest
      omega
    unfold acquireStep
    rw [if_pos hlen2]

/-- Closed witness for `rate_limiter_window`: three simultaneous attempts
against burst 2 complete at most twice within the unit window. -/
theorem rate_limiter_window_witness :
    (runAcquires 2 [] [0, 0, 0]).2.countP (winP 0) ≤ 2 :=
  rate_limiter_window.1 2 [0, 0, 0] (by decide) 0

/-- C4 counterexample: with one non-archived page whose content render
fails (and whose file write succeeds), the write phase completes and the
page is present in the results that form the new index — the claim says
it is omitted; and with a page whose file write fails, the write phase
aborts with the error — the claim says the failure is caught inside the
task and does not abort the run. -/
theorem task_failure_counterexample :
    gather_pages [("p1", wsPage)] (fun _ => ⟨true, false, "boom"⟩)
        (fun _ => ["content"]) "now" ["p1"] [] []
      = Except.ok ([("p1", "t1")], [("p1", "p1", "boom")])
    ∧ gather_pages [("p1", wsPage)] (fun _ => ⟨false, true, ""⟩)
        (fun _ => ["content"]) "now" ["p1"] [] []
      = Except.error "write failed" := by
  constructor
  · rfl
  · rfl

/-- Successful-write characterization of `write_page_markdown`. -/
theorem write_page_markdown_ok (env : TaskEnv) (page : NPage) (content : List String)
    (now : String) (report : List (String × String × String))
    (hw : env.writeFails = false) :
    write_page_markdown env page content now report
      = Except.ok (pageHeaderLines page now
            ++ (if env.renderFails
                then ["- (content not accessible; check access report)"]
                else content) ++ [""],
          if env.renderFails
          then report ++ [(page.id, page.id, env.renderMsg)]
          else report) := by
  simp [write_page_markdown, hw]

/-- C4 amended: (1) a content-render failure is caught inside the
object's write: the page file is still written, holding the placeholder
line instead of the content, the failure is recorded in the access
report, and the object's write completes; (2) when no file write fails,
the phase completes despite any render failures and every non-archived
object appears in the results forming the new index; (3) a file-write
failure is not caught per-task: it propagates out of the object's task
and aborts the write phase (hence the run). -/
theorem render_failure_contained_write_failure_fatal :
    (∀ (env : TaskEnv) (page : NPage) (content : List String) (now : String)
        (report : List (String × String × String)),
      env.renderFails = true → env.writeFails = false →
      write_page_markdown env page content now report
        = Except.ok (pageHeaderLines page now
              ++ ["- (content not accessible; check access report)"] ++ [""],
            report ++ [(page.id, page.id, env.renderMsg)]))
    ∧ (∀ (pages : PageCache) (env : String → TaskEnv) (content : String → List String)
        (now : String) (ids : List String) (results : List (String × String))
        (report : List (String × String × String)),
      (∀ pid ∈ ids, (env pid).writeFails = false) →
      ∃ res rep, gather_pages pages env content now ids results report
          = Except.ok (res, rep)
        ∧ (∀ r ∈ results, r ∈ res)
        ∧ ∀ pid ∈ ids, (ensure_page pages pid).archived = false →
            pid ∈ res.map Prod.fst)
    ∧ (∀ (pages : PageCache) (env : String → TaskEnv) (content : String → List String)
        (now : String) (pid : String) (rest : List String)
        (results : List (String × String)) (report : List (String × String × String)),
      (ensure_page pages pid).archived = false → (env pid).writeFails = true →
      gather_pages pages env content now (pid :: rest) results report
        = Except.error "write failed") := by
  refine ⟨?_, ?_, ?_⟩
  · intro env page content now report hr hw
    simp [write_page_markdown, hr, hw]
  · intro pages env content now ids
    induction ids with
    | nil =>
      intro results report h
      exact ⟨results, report, rfl, fun r hr => hr,
        fun pid hpid => absurd hpid (List.not_mem_nil pid)⟩
    | cons pid rest ih =>
      intro results report h
      by_cases ha : (ensure_page pages pid).archived = true
      · obtain ⟨res, rep, hok, hacc, hmem⟩ :=
          ih results report (fun q hq => h q (List.mem_cons_of_mem pid hq))
        refine ⟨res, rep, ?_, hacc, ?_⟩
        · simp only [gather_pages, ha, if_true]
          exact hok
        · intro q hq harch
          rcases List.mem_cons.1 hq with rfl | hq2
          · rw [harch] at ha
            exact absurd ha (by simp)
          · exact hmem q hq2 harch
      · have ha2 : (ensure_page pages pid).archived = false := by
          cases h2 : (ensure_page pages pid).archived
          · rfl
          · exact absurd h2 ha
        have hwf : (env pid).writeFails = false := h pid (List.mem_cons_self pid rest)
        obtain ⟨res, rep, hok, hacc, hmem⟩ :=
          ih (results ++ [(pid, (ensure_page pages pid).last_edited_time)])
            (if (env pid).renderFails
              then report ++ [((ensure_page pages pid).id, (ensure_page pages pid).id,
                    (env pid).renderMsg)]
              else report)
            (fun q hq => h q (List.mem_cons_of_mem pid hq))
        refine ⟨res, rep, ?_, ?_, ?_⟩
        · simp only [gather_pages, ha2, Bool.false_eq_true, if_false,
            write_page_markdown_ok (env pid) _ _ _ _ hwf]
          exact hok
        · intro r hr
          exact hacc r (List.mem_append_left _ hr)
        · intro q hq harch
          rcases List.mem_cons.1 hq with rfl | hq2
          · have hin : (q, (ensure_page pages q).last_edited_time) ∈ res :=
              hacc _ (List.mem_append_right _ (List.mem_singleton.2 rfl))
            exact List.mem_map_of_mem Prod.fst hin
          · exact hmem q hq2 harch
  · intro pages env content now pid rest results report ha hw
    simp [gather_pages, ha, write_page_markdown, hw]

/-- Closed witness for `render_failure_contained_write_failure_fatal`:
a concrete render failure still produces the placeholder file and report
entry, and a concrete write failure aborts the phase. -/
theorem render_failure_contained_write_failure_fatal_witness :
    write_page_markdown ⟨true, false, "boom2"⟩ wsPage ["c"] "n" []
        = Except.ok (pageHeaderLines wsPage "n"
            ++ ["- (content not accessible; check access report)"] ++ [""],
          [(wsPage.id, wsPage.id, "boom2")])
    ∧ gather_pages [("p1", wsPage)] (fun _ => ⟨false, true, ""⟩)
        (fun _ => ["c"]) "n" ["p1"] [] [] = Except.error "write failed" :=
  ⟨render_failure_contained_write_failure_fatal.1 ⟨true, false, "boom2"⟩
      wsPage ["c"] "n" [] rfl rfl,
    render_failure_contained_write_failure_fatal.2.2 [("p1", wsPage)]
      (fun _ => ⟨false, true, ""⟩) (fun _ => ["c"]) "n" "p1" [] [] []
      (by decide) rfl⟩

end N2G
